import Mathlib

/-!
Verification of the HiGHS dual-simplex core specification against the
source fragments of the repository.

Conventions of the shallow embedding:
* C `double` values that only ever partake in comparisons, copies and exact
  arithmetic are modelled as `ℚ`.
* C `int` values are modelled as `ℤ` when they are data and as `ℕ` when they
  are sizes or array indices (the source only uses non-negative values there).
* C arrays are modelled as `List` with `List.getD`/`List.set`; an
  out-of-range read yields the default (the source never performs one on the
  inputs considered).
* Parts of the repository that are referenced but whose translation units are
  not in the source tree (`HDual.cpp`, `HDualMulti.cpp`, `HSimplex.cpp`,
  `HConst.h`, `FindFeasibility.h`, `HighsStatus.h`, the body of
  `isSolutionConsistent`) are either modelled from the specification text
  (marked `Modelled from the spec:`) or left as parameters that theorems
  quantify over.
-/

/- ===================================================================
   Constants of simplex/HDual.h (source: unnamed/part_002)
   =================================================================== -/

/-- Source HDual.h: limit on number of threads used to dimension many
identifiers (`const int HIGHS_THREAD_LIMIT = 32`). -/
def HIGHS_THREAD_LIMIT : Nat := 32

/-- Source HDual.h: limit on the number of column slices for parallel
calculations (`const int HIGHS_SLICED_LIMIT = 100`). -/
def HIGHS_SLICED_LIMIT : Nat := 100

/-- Source HDual.h: `const int minAbsNumberDevexIterations = 25`. -/
def minAbsNumberDevexIterations : Nat := 25

/-- Source HDual.h: `const double minRlvNumberDevexIterations = 1e-2`. -/
def minRlvNumberDevexIterations : ℚ := 0.01

/-- Source HDual.h: `const double maxAllowedDevexWeightRatio = 3.0`. -/
def maxAllowedDevexWeightRatio : ℚ := 3

/-- Source HDual.h: candidate persistence cut-off in PAMI
(`const double pami_cutoff = 0.95`); the same default appears as
`HighsSimplexInfo::pami_cutoff = 0.95` in lp_data/HighsLp.h. -/
def pami_cutoff : ℚ := 0.95

/-- Source HDual.h: `const double dstyColPriceSw = 0.75`, the density at which
PRICE switches to the column-wise mode by default. -/
def dstyColPriceSw : ℚ := 0.75

/-- Source HDual.h: `const double AnIterFracNumTot_ItBfSw = 0.1`. -/
def AnIterFracNumTot_ItBfSw : ℚ := 0.1

/-- Source HDual.h: `const double AnIterFracNumCostlyDseItbfSw = 0.05`. -/
def AnIterFracNumCostlyDseItbfSw : ℚ := 0.05

/-- Source HDual.h: `enum class DualEdgeWeightMode { DANTZIG = 0, DEVEX,
STEEPEST_EDGE, Count }`. -/
inductive DualEdgeWeightMode where
  | DANTZIG
  | DEVEX
  | STEEPEST_EDGE
  | Count
deriving DecidableEq

/-- Source HDual.h: `enum class PriceMode { ROW = 0, COL }`. -/
inductive PriceMode where
  | ROW
  | COL
deriving DecidableEq

/- ===================================================================
   C2: PAMI minor-iteration batch bound
   =================================================================== -/

/-- Modelled from the spec: the implementation of the PAMI major iteration
(HDualMulti.cpp) is not in the source tree.  Spec 4.7: the multi engine
"runs batches of k ≤ 8 minor iterations against a single factor", so the
batch size chosen by multiple CHUZR is bounded by 8. -/
def PAMI_MINOR_BATCH_LIMIT : Nat := 8

/-- The per-major-iteration multiple CHUZR counters of HDual
(`multi_num` slots chosen, `multi_nFinish` slots finished). -/
structure PamiMajorState where
  multi_num : Nat
  multi_nFinish : Nat
deriving DecidableEq

/-- Modelled from the spec: the events of a PAMI major iteration that touch
the slot counters.  `chooseRow` (major CHUZR) selects a fresh batch of at
most `PAMI_MINOR_BATCH_LIMIT` slots and resets the finish counter;
`minorFinish` completes one chosen slot. -/
inductive PamiEvent : PamiMajorState → PamiMajorState → Prop where
  | chooseRow : ∀ (s : PamiMajorState) (k : Nat), k ≤ PAMI_MINOR_BATCH_LIMIT →
      PamiEvent s { multi_num := k, multi_nFinish := 0 }
  | minorFinish : ∀ (s : PamiMajorState), s.multi_nFinish < s.multi_num →
      PamiEvent s { multi_num := s.multi_num, multi_nFinish := s.multi_nFinish + 1 }

/-- States of the slot counters reachable from the initial (empty) state. -/
def PamiReachable : PamiMajorState → Prop :=
  Relation.ReflTransGen PamiEvent { multi_num := 0, multi_nFinish := 0 }

/- ===================================================================
   C3: Devex framework reset condition
   =================================================================== -/

/-- Modelled from the spec: the Devex update code (HDual.cpp) is not in the
source tree.  Spec 4.3: a new framework is started "every max(25, m/100)
iterations"; the constants are `minAbsNumberDevexIterations` and
`minRlvNumberDevexIterations` of HDual.h. -/
def devexFrameworkIterationLimit (numRow : Nat) : Nat :=
  max minAbsNumberDevexIterations
    (Nat.floor ((numRow : ℚ) * minRlvNumberDevexIterations))

/-- Modelled from the spec: spec 4.3, "New framework every max(25, m/100)
iterations or when weight ratio exceeds 3"; the weight-inaccuracy condition
uses `maxAllowedDevexWeightRatio` of HDual.h.  `nw_dvx_fwk` is set exactly
when this predicate holds. -/
def newDevexFramework (weightRat : ℚ) (n_dvx_it numRow : Nat) : Bool :=
  decide ( maxAllowedDevexWeightRatio < weightRat) ||
    decide (devexFrameworkIterationLimit numRow ≤ n_dvx_it)

/- ===================================================================
   C8: PAMI candidate persistence
   =================================================================== -/

/-- Modelled from the spec: HDualMulti.cpp is not in the source tree.  At
choice time a slot records `MChoice.infeasLimit`, the fraction
`pami_cutoff` of the infeasibility of its row (`MChoice.infeasValue`). -/
def slotInfeasLimit (cutoff infeasAtChoice : ℚ) : ℚ :=
  cutoff * infeasAtChoice

/-- Modelled from the spec: spec 4.7, "Candidate persistence: a slot is
skipped if, between choice and commit, its row's infeasibility dropped below
a fraction (default 0.95) of its original value." -/
def slotSkipped (cutoff infeasAtChoice current : ℚ) : Bool :=
  decide (current < slotInfeasLimit cutoff infeasAtChoice)

/- ===================================================================
   C9: column PRICE switch
   =================================================================== -/

/-- Modelled from the spec: the PRICE-mode selection code (HDual.cpp) is not
in the source tree.  Spec 4.1: PRICE_COL is "chosen when rho is dense enough
(density ≥ 0.75 by default)", the threshold being `dstyColPriceSw` of
HDual.h, and only when the option `allow_price_by_col_switch` permits it. -/
def choosePriceMode (allow_price_by_col_switch : Bool)
    (row_epDensity : ℚ) : PriceMode :=
  if allow_price_by_col_switch && decide (dstyColPriceSw ≤ row_epDensity) then
    PriceMode.COL
  else
    PriceMode.ROW

/- ===================================================================
   C10: costly-DSE switch to Devex
   =================================================================== -/

/-- Modelled from the spec: the monitor code (HDual.cpp) is not in the source
tree.  Spec 4.8: the monitor "counts costly-DSE iterations — if costly-DSE
frequency exceeds 5% over > 10% of total iterations, switch
dual_edge_weight_mode from DSE to Devex (if permitted)".  The thresholds are
`AnIterFracNumCostlyDseItbfSw` and `AnIterFracNumTot_ItBfSw` of HDual.h and
the permission is `allow_dual_steepest_edge_to_devex_switch`. -/
def dseToDevexSwitchCondition (allowSwitch : Bool) (mode : DualEdgeWeightMode)
    (costlyDseFq : ℚ) (itersDone totalIters : Nat) : Bool :=
  allowSwitch && decide (mode = DualEdgeWeightMode.STEEPEST_EDGE) &&
    decide (AnIterFracNumCostlyDseItbfSw < costlyDseFq) &&
    decide (AnIterFracNumTot_ItBfSw * (totalIters : ℚ) < (itersDone : ℚ))

/-- Modelled from the spec: the edge-weight mode after the costly-DSE monitor
has run; it becomes DEVEX exactly when the switch condition fires, and is
otherwise left unchanged. -/
def dseMonitorMode (allowSwitch : Bool) (mode : DualEdgeWeightMode)
    (costlyDseFq : ℚ) (itersDone totalIters : Nat) : DualEdgeWeightMode :=
  if dseToDevexSwitchCondition allowSwitch mode costlyDseFq itersDone totalIters then
    DualEdgeWeightMode.DEVEX
  else
    mode

/- ===================================================================
   C7: LP actions and the simplex LP status
   =================================================================== -/

/-- Source lp_data/HighsLp.h: `enum class LpAction { DUALISE = 0, PERMUTE,
SCALE, NEW_COSTS, NEW_BOUNDS, NEW_BASIS, NEW_COLS, NEW_ROWS, DEL_COLS,
DEL_ROWS, DEL_ROWS_BASIS_OK }`. -/
inductive LpAction where
  | DUALISE
  | PERMUTE
  | SCALE
  | NEW_COSTS
  | NEW_BOUNDS
  | NEW_BASIS
  | NEW_COLS
  | NEW_ROWS
  | DEL_COLS
  | DEL_ROWS
  | DEL_ROWS_BASIS_OK
deriving DecidableEq, Fintype

/-- The integer code the C enum assigns to each action (DUALISE = 0 and the
following enumerators increment). -/
def LpAction.toCode : LpAction → Nat
  | .DUALISE => 0
  | .PERMUTE => 1
  | .SCALE => 2
  | .NEW_COSTS => 3
  | .NEW_BOUNDS => 4
  | .NEW_BASIS => 5
  | .NEW_COLS => 6
  | .NEW_ROWS => 7
  | .DEL_COLS => 8
  | .DEL_ROWS => 9
  | .DEL_ROWS_BASIS_OK => 10

/-- Source lp_data/HighsLp.h: `struct HighsSimplexLpStatus`.  The type of the
field `solution_status` (`SimplexSolutionStatus`, declared in
simplex/SimplexConst.h) is not in the source tree, so it is a parameter. -/
structure HighsSimplexLpStatus (σ : Type) where
  valid : Bool
  is_dualised : Bool
  is_permuted : Bool
  scaling_tried : Bool
  has_basis : Bool
  has_matrix_col_wise : Bool
  has_matrix_row_wise : Bool
  has_factor_arrays : Bool
  has_dual_steepest_edge_weights : Bool
  has_nonbasic_dual_values : Bool
  has_basic_primal_values : Bool
  has_invert : Bool
  has_fresh_invert : Bool
  has_fresh_rebuild : Bool
  has_dual_objective_value : Bool
  has_primal_objective_value : Bool
  solution_status : σ

/-- Modelled from the spec: which of the ten booleans named in spec 6 an
action clears.  The body of `update_simplex_lp_status` (HSimplex.cpp) is not
in the source tree; spec 6 says "Each action clears a defined subset of
SimplexLpStatus booleans (has_basis, has_matrix_col_wise,
has_matrix_row_wise, has_factor_arrays, has_dual_steepest_edge_weights,
has_nonbasic_dual_values, has_basic_primal_values, has_invert,
has_fresh_invert, has_fresh_rebuild)". -/
structure SimplexStatusClearMask where
  has_basis : Bool
  has_matrix_col_wise : Bool
  has_matrix_row_wise : Bool
  has_factor_arrays : Bool
  has_dual_steepest_edge_weights : Bool
  has_nonbasic_dual_values : Bool
  has_basic_primal_values : Bool
  has_invert : Bool
  has_fresh_invert : Bool
  has_fresh_rebuild : Bool

/-- Modelled from the spec: `update_simplex_lp_status` (declared in
simplex/HSimplex.h; body not in the source tree) applies the clearing subset
of the prompting action to the ten booleans of spec 6 and leaves every other
field of the status untouched. -/
def update_simplex_lp_status {σ : Type}
    (clears : LpAction → SimplexStatusClearMask)
    (s : HighsSimplexLpStatus σ) (action : LpAction) :
    HighsSimplexLpStatus σ :=
  let m := clears action
  { s with
    has_basis := s.has_basis && !m.has_basis
    has_matrix_col_wise := s.has_matrix_col_wise && !m.has_matrix_col_wise
    has_matrix_row_wise := s.has_matrix_row_wise && !m.has_matrix_row_wise
    has_factor_arrays := s.has_factor_arrays && !m.has_factor_arrays
    has_dual_steepest_edge_weights :=
      s.has_dual_steepest_edge_weights && !m.has_dual_steepest_edge_weights
    has_nonbasic_dual_values :=
      s.has_nonbasic_dual_values && !m.has_nonbasic_dual_values
    has_basic_primal_values :=
      s.has_basic_primal_values && !m.has_basic_primal_values
    has_invert := s.has_invert && !m.has_invert
    has_fresh_invert := s.has_fresh_invert && !m.has_fresh_invert
    has_fresh_rebuild := s.has_fresh_rebuild && !m.has_fresh_rebuild }

/- ===================================================================
   FindFeasibility (source: unnamed/part_004) - data model
   =================================================================== -/

/-- Source lp_data/HighsLp.h: the fields of `class HighsLp` used by
FindFeasibility.cpp (matrix in column-wise sparse form, costs, bounds,
dimensions, objective sense). -/
structure HighsLp where
  numCol : Nat
  numRow : Nat
  Astart : List Nat
  Aindex : List Nat
  Avalue : List ℚ
  colCost : List ℚ
  colLower : List ℚ
  colUpper : List ℚ
  rowLower : List ℚ
  rowUpper : List ℚ
  sense : Int

/-- Source lp_data/HighsLp.h: `struct HighsSolution`. -/
structure HighsSolution where
  col_value : List ℚ
  col_dual : List ℚ
  row_value : List ℚ
  row_dual : List ℚ

/-- The values of the `HighsStatus` enum used by FindFeasibility.cpp
(the full enum is declared in lp_data/HighsStatus.h, which is not in the
source tree; only these three values occur in the translated code). -/
inductive HighsStatus where
  | OK
  | NotImplemented
  | Error
deriving DecidableEq

/-- The two values of `MinimizationType` used by FindFeasibility.cpp (the
enum is declared in FindFeasibility.h, which is not in the source tree;
only these two values occur in the translated code). -/
inductive MinimizationType where
  | kComponentWise
  | kExact
deriving DecidableEq

/-- Source FindFeasibility.cpp, `isEqualityProblem`: scan rows 0..numRow-1
and return false on the first row whose lower bound differs from its upper
bound. -/
def isEqualityProblem (lp : HighsLp) : Bool :=
  (List.range lp.numRow).all fun row =>
    decide (lp.rowLower.getD row 0 = lp.rowUpper.getD row 0)

/-- Source FindFeasibility.cpp, the body of the column loop of `initialize`:
the starting value assigned to a column with bounds `L`, `U`, or `none` on
the branch that logs an error and returns `HighsStatus::Error`. -/
def colStartingValue (L U : ℚ) : Option ℚ :=
  if L ≤ 0 ∧ 0 ≤ U then some 0
  else if 0 < L then some L
  else if U < 0 then some U
  else none

/-- Source FindFeasibility.cpp, the column loop of `initialize` translated
with an explicit remaining-column count: processes columns `col`,
`col+1`, ... and stops early (returning the partially updated values on the
`Except.error` side) when a column admits no starting value. -/
def initLoop (lp : HighsLp) : Nat → Nat → List ℚ → Except (List ℚ) (List ℚ)
  | _, 0, cv => Except.ok cv
  | col, rem + 1, cv =>
    match colStartingValue (lp.colLower.getD col 0) (lp.colUpper.getD col 0) with
    | some x => initLoop lp (col + 1) rem (cv.set col x)
    | none => Except.error cv

/-- Source FindFeasibility.cpp, `chooseStartingMu`: returns 10. -/
def chooseStartingMu (_lp : HighsLp) : ℚ := 10

/-- Source FindFeasibility.cpp, `initialize`.  The body of
`isSolutionConsistent` (declared in lp_data/HighsLp.h) is not in the source
tree, so it enters as the parameter `consistent`.  If the solution is not
consistent all four solution vectors are cleared and `col_value` is resized
to `numCol` (C++ value-initialises the new doubles to 0); then every column
receives its starting value, with `HighsStatus::Error` returned as soon as a
column admits none; on success `mu` is set by `chooseStartingMu` and
`lambda` is assigned `numRow` zeroes.  `mu0`/`lambda0` are the caller's
values of the by-reference arguments, returned unchanged on the error
path.  This definition is the consistency block: if the solution is not
consistent, all four vectors are cleared and `col_value` is resized to
`numCol` zeroes. -/
def clearedSolution (consistent : HighsLp → HighsSolution → Bool)
    (lp : HighsLp) (sol : HighsSolution) : HighsSolution :=
  if consistent lp sol then sol
  else { col_value := List.replicate lp.numCol 0, col_dual := [],
         row_value := [], row_dual := [] }

/-- Source FindFeasibility.cpp, `initialize`, continued: the column loop run
on the (possibly cleared) solution, the early `HighsStatus::Error` return,
and on success the assignment of `mu` and `lambda`. -/
def initializeSolution (consistent : HighsLp → HighsSolution → Bool)
    (lp : HighsLp) (sol : HighsSolution) (mu0 : ℚ) (lambda0 : List ℚ) :
    HighsStatus × HighsSolution × ℚ × List ℚ :=
  match initLoop lp 0 lp.numCol (clearedSolution consistent lp sol).col_value with
  | Except.error cv =>
      (HighsStatus.Error,
        { clearedSolution consistent lp sol with col_value := cv }, mu0, lambda0)
  | Except.ok cv =>
      (HighsStatus.OK,
        { clearedSolution consistent lp sol with col_value := cv },
        chooseStartingMu lp, List.replicate lp.numRow 0)

/-- Source FindFeasibility.cpp, `runFeasibility`, to the depth the control
flow is decided before any penalty-minimisation iteration is performed: a
non-equality problem returns NotImplemented at once, and an exact
minimisation request returns NotImplemented right after `initialize` (whose
status the source ignores) and before the iteration loop.  The remainder of
the routine (the component-wise penalty minimisation) enters as the
parameter `componentWisePhase`, which reports its result status together
with the number of `minimize_by_component` iterations it performed.  The
second component of the result counts the penalty-minimisation iterations
performed overall. -/
def runFeasibility (consistent : HighsLp → HighsSolution → Bool)
    (componentWisePhase : HighsLp → HighsSolution → ℚ → List ℚ → HighsStatus × Nat)
    (lp : HighsLp) (sol : HighsSolution) (type : MinimizationType) :
    HighsStatus × Nat :=
  if isEqualityProblem lp = false then (HighsStatus.NotImplemented, 0)
  else
    let ini := initializeSolution consistent lp sol 0 []
    match type with
    | MinimizationType.kComponentWise =>
        componentWisePhase lp ini.2.1 ini.2.2.1 ini.2.2.2
    | MinimizationType.kExact => (HighsStatus.NotImplemented, 0)

/- ===================================================================
   increasing_set_ok (source: unnamed/part_000, HighsSort.cpp)
   =================================================================== -/

/-- Source HighsSort.cpp, the scanning loop shared by both overloads of
`increasing_set_ok`: walk the entries carrying the previous entry, failing
on a decrease or (when bounds are checked) on an entry above the upper
bound. -/
def increasingLoop {α : Type} [LinearOrder α] (checkBounds : Bool)
    (upper : α) : α → List α → Bool
  | _, [] => true
  | prev, e :: rest =>
    if e < prev then false
    else if checkBounds && decide (upper < e) then false
    else increasingLoop checkBounds upper e rest

/-- Source HighsSort.cpp, `increasing_set_ok` (both the int and the double
overload share this shape): a null set or a negative entry count fails;
otherwise the entries are scanned with the previous entry initialised to the
lower bound when `lower ≤ upper`, and to `negInf` otherwise.  In the source
`negInf` is `-HIGHS_CONST_I_INF` (int overload) resp. `-HIGHS_CONST_INF`
(double overload); lp_data/HConst.h is not in the source tree, so the value
is a parameter here.  The pointer argument is an `Option`al list of the
`set_num_entries` array entries the source reads. -/
def increasing_set_ok {α : Type} [LinearOrder α] (negInf : α)
    (set : Option (List α)) (set_num_entries : Int)
    (set_entry_lower set_entry_upper : α) : Bool :=
  if set_num_entries < 0 then false
  else
    match set with
    | none => false
    | some l =>
      let checkBounds := decide (set_entry_lower ≤ set_entry_upper)
      let prev := if checkBounds then set_entry_lower else negInf
      increasingLoop checkBounds set_entry_upper prev (l.take set_num_entries.toNat)

/-- The int overload of `increasing_set_ok` (values are C ints). -/
def increasing_set_ok_int (negInf : ℤ) (set : Option (List ℤ))
    (set_num_entries : Int) (set_entry_lower set_entry_upper : ℤ) : Bool :=
  increasing_set_ok negInf set set_num_entries set_entry_lower set_entry_upper

/-- The double overload of `increasing_set_ok` (values modelled as ℚ). -/
def increasing_set_ok_double (negInf : ℚ) (set : Option (List ℚ))
    (set_num_entries : Int) (set_entry_lower set_entry_upper : ℚ) : Bool :=
  increasing_set_ok negInf set set_num_entries set_entry_lower set_entry_upper

/- ===================================================================
   HighsSort heapsort (source: unnamed/part_000, HighsSort.cpp)
   =================================================================== -/

/-- Source HighsSort.cpp, the larger-child selection line of `max_heapify`
(`if (j < n && heap_v[j + 1] > heap_v[j]) j = j + 1;`), shared by both
overloads.  Throughout the heapsort embedding `leB a b` is the value
comparison `a <= b`; `a > b` is `!leB a b`.  For the value-index overload
the value array and the index array move in lock-step, so they are embedded
as a single list of (value, index) pairs compared on the value component. -/
def pickChild {α : Type} (leB : α → α → Bool) (d : α) (v : List α)
    (j n : Nat) : Nat :=
  if j < n && !leB (v.getD (j + 1) d) (v.getD j d) then j + 1 else j

/-- Source HighsSort.cpp, the sift-down loop of `max_heapify`, with the hole
at `j / 2` carrying `temp`.  `j` at least doubles every iteration, so `n + 1`
rounds of fuel always suffice; when the fuel argument of a call is exhausted
the hypotheses of the lemmas below force `j > n`, where the fuel-exhausted
result coincides with the loop-exit write `heap_v[j / 2] = temp_v`. -/
def siftDown {α : Type} (leB : α → α → Bool) (d : α) :
    Nat → List α → α → Nat → Nat → List α
  | 0, v, temp, j, _ => v.set (j / 2) temp
  | fuel + 1, v, temp, j, n =>
    if j ≤ n then
      if !leB temp (v.getD (pickChild leB d v j n) d) then
        v.set (pickChild leB d v j n / 2) temp
      else
        siftDown leB d fuel
          (v.set (pickChild leB d v j n / 2) (v.getD (pickChild leB d v j n) d))
          temp (2 * pickChild leB d v j n) n
    else v.set (j / 2) temp

/-- Source HighsSort.cpp, `max_heapify(heap_v, i, n)` (both overloads):
read `temp_v = heap_v[i]`, start the loop at `j = 2 * i`. -/
def max_heapify {α : Type} (leB : α → α → Bool) (d : α) (v : List α)
    (i n : Nat) : List α :=
  siftDown leB d (n + 1) v (v.getD i d) (2 * i) n

/-- Source HighsSort.cpp, the loop of `build_maxheap`: `max_heapify` for
`i = n / 2` down to 1. -/
def buildLoop {α : Type} (leB : α → α → Bool) (d : α) :
    Nat → Nat → List α → List α
  | 0, _, v => v
  | i + 1, n, v => buildLoop leB d i n (max_heapify leB d v (i + 1) n)

/-- Source HighsSort.cpp, `build_maxheap(heap_v, n)`. -/
def build_maxheap {α : Type} (leB : α → α → Bool) (d : α) (v : List α)
    (n : Nat) : List α :=
  buildLoop leB d (n / 2) n v

/-- Source HighsSort.cpp, the loop of `max_heapsort`: for `i = n` down to 2,
swap `heap_v[i]` with `heap_v[1]` (reading `temp_v = heap_v[i]` first) and
re-heapify positions 1..i-1. -/
def sortLoop {α : Type} (leB : α → α → Bool) (d : α) :
    Nat → List α → List α
  | 0, v => v
  | 1, v => v
  | i + 2, v =>
    sortLoop leB d (i + 1)
      (max_heapify leB d
        ((v.set (i + 2) (v.getD 1 d)).set 1 (v.getD (i + 2) d)) 1 (i + 1))

/-- Source HighsSort.cpp, `max_heapsort(heap_v, n)`. -/
def max_heapsort {α : Type} (leB : α → α → Bool) (d : α) (v : List α)
    (n : Nat) : List α :=
  sortLoop leB d n v

/-- Source HighsSort.cpp, `maxheapsort(heap_v, n)`: build the heap over
positions 1..n, then sort them in place. -/
def maxheapsort {α : Type} (leB : α → α → Bool) (d : α) (v : List α)
    (n : Nat) : List α :=
  max_heapsort leB d (build_maxheap leB d v n) n

/-- The int overload `maxheapsort(int* heap_v, int n)`. -/
def maxheapsort_int (v : List ℤ) (n : Nat) : List ℤ :=
  maxheapsort (fun a b => decide (a ≤ b)) 0 v n

/-- The value-index overload `maxheapsort(double* heap_v, int* heap_i,
int n)`: entries are (value, index) pairs, compared on the value. -/
def maxheapsort_vi (v : List (ℚ × ℤ)) (n : Nat) : List (ℚ × ℤ) :=
  maxheapsort (fun a b => decide (a.1 ≤ b.1)) (0, 0) v n

/-- Membership of `k` in the (1-based, binary-heap) subtree rooted at `i`:
some iterated parent (halving) of `k` is `i`. -/
def inSub (i k : Nat) : Prop :=
  ∃ t : Nat, k / 2 ^ t = i

/-- The multiset of entries of positions 1..n of the flat 1-based array
`v` — the segment `maxheapsort` sorts. -/
def seg {α : Type} (v : List α) (n : Nat) : Multiset α :=
  ((v.drop 1).take n : List α)

/-- The max-heap property of positions 1..n of `v`: every entry is at most
its parent entry. -/
def heapOrdered {α : Type} (leB : α → α → Bool) (d : α) (v : List α)
    (n : Nat) : Prop :=
  ∀ k, 2 ≤ k → k ≤ n → leB (v.getD k d) (v.getD (k / 2) d) = true

/- ===================================================================
   Theorems: C2
   =================================================================== -/

/-- Along any run, the slot counters satisfy the inductive invariant. -/
theorem pami_counters_invariant (s : PamiMajorState) (h : PamiReachable s) :
    s.multi_nFinish ≤ s.multi_num ∧ s.multi_num ≤ PAMI_MINOR_BATCH_LIMIT := by
  induction h with
  | refl => exact ⟨Nat.le_refl 0, by decide⟩
  | tail _ hstep ih =>
    cases hstep with
    | chooseRow k hk => exact ⟨Nat.zero_le k, hk⟩
    | minorFinish hlt => exact ⟨hlt, ih.2⟩

/-- C2: in every PAMI major iteration the number of minor iterations batched
against a single factor is at most 8: the multi-CHUZR slot count `multi_num`
and the finished-slot count `multi_nFinish` never exceed 8 in any reachable
state of the slot counters. -/
theorem claim_C2_pami_minor_batch_at_most_eight
    (s : PamiMajorState) (h : PamiReachable s) :
    s.multi_num ≤ 8 ∧ s.multi_nFinish ≤ 8 := by
  obtain ⟨h1, h2⟩ := pami_counters_invariant s h
  exact ⟨h2, Nat.le_trans h1 h2⟩

/-- Witness for C2 at the concrete state (2, 1), reached by choosing a batch
of two slots and finishing one of them. -/
theorem claim_C2_witness :
    PamiReachable { multi_num := 2, multi_nFinish := 1 } ∧
      ({ multi_num := 2, multi_nFinish := 1 } : PamiMajorState).multi_num ≤ 8 ∧
      ({ multi_num := 2, multi_nFinish := 1 } : PamiMajorState).multi_nFinish ≤ 8 := by
  have hreach : PamiReachable { multi_num := 2, multi_nFinish := 1 } :=
    Relation.ReflTransGen.tail
      (Relation.ReflTransGen.single
        (PamiEvent.chooseRow { multi_num := 0, multi_nFinish := 0 } 2 (by decide)))
      (PamiEvent.minorFinish { multi_num := 2, multi_nFinish := 0 } (by decide))
  exact ⟨hreach, claim_C2_pami_minor_batch_at_most_eight _ hreach⟩

/- ===================================================================
   Theorems: C3
   =================================================================== -/

/-- C3: a new Devex framework is started exactly when the weight-inaccuracy
measure exceeds 3 or the number of Devex iterations with the current
framework reaches max(25, m/100), m the number of rows; no other condition
triggers the reset. -/
theorem claim_C3_new_devex_framework_condition
    (weightRat : ℚ) (n_dvx_it numRow : Nat) :
    newDevexFramework weightRat n_dvx_it numRow = true ↔
      (3 < weightRat ∨ max 25 (numRow / 100) ≤ n_dvx_it) := by
  have hfloor : Nat.floor ((numRow : ℚ) * minRlvNumberDevexIterations)
      = numRow / 100 := by
    have h1 : (numRow : ℚ) * minRlvNumberDevexIterations
        = (numRow : ℚ) / ((100 : ℕ) : ℚ) := by
      unfold minRlvNumberDevexIterations
      push_cast
      norm_num
      ring
    rw [h1, Nat.floor_div_nat, Nat.floor_natCast]
  unfold newDevexFramework devexFrameworkIterationLimit
  rw [hfloor]
  simp [minAbsNumberDevexIterations, maxAllowedDevexWeightRatio]

/- ===================================================================
   Theorems: C8
   =================================================================== -/

/-- C8: a PAMI slot chosen by multiple CHUZR is skipped at commit time
exactly when the infeasibility of its row has dropped below the fraction
0.95 (the default candidate-persistence cut-off) of its value at choice
time. -/
theorem claim_C8_pami_candidate_persistence :
    pami_cutoff = 95 / 100 ∧
      ∀ (infeasAtChoice current : ℚ),
        slotSkipped pami_cutoff infeasAtChoice current = true ↔
          current < (95 / 100) * infeasAtChoice := by
  constructor
  · norm_num [pami_cutoff]
  · intro infeasAtChoice current
    unfold slotSkipped slotInfeasLimit pami_cutoff
    norm_num

/- ===================================================================
   Theorems: C9
   =================================================================== -/

/-- C9: by default the engine chooses column PRICE exactly when the running
average density of the BTRAN result reaches at least 0.75: the switch
threshold equals 0.75 and PRICE_COL is selected iff the measure reaches it
and the column switch is allowed. -/
theorem claim_C9_col_price_switch_threshold :
    dstyColPriceSw = 3 / 4 ∧
      ∀ (allow : Bool) (dsty : ℚ),
        choosePriceMode allow dsty = PriceMode.COL ↔
          (allow = true ∧ 3 / 4 ≤ dsty) := by
  constructor
  · norm_num [dstyColPriceSw]
  · intro allow dsty
    cases allow with
    | false => simp [choosePriceMode]
    | true =>
      unfold choosePriceMode dstyColPriceSw
      split
      · rename_i h
        simp only [Bool.true_and, decide_eq_true_eq] at h
        simpa using by linarith
      · rename_i h
        simp only [Bool.true_and, decide_eq_true_eq] at h
        constructor
        · intro hx
          exact absurd hx (by simp)
        · intro hx
          exact absurd (by linarith [hx.2] : dstyColPriceSw ≤ dsty)
            (by simpa [dstyColPriceSw] using h)

/- ===================================================================
   Theorems: C10
   =================================================================== -/

/-- C10: with DSE weights in use and the switch permitted, the monitor
switches the edge-weight mode from STEEPEST_EDGE to DEVEX exactly when the
costly-DSE frequency exceeds 5 percent after more than 10 percent of the
total iterations have been performed; otherwise it never changes the
mode. -/
theorem claim_C10_costly_dse_switch
    (allowSwitch : Bool) (mode : DualEdgeWeightMode)
    (costlyDseFq : ℚ) (itersDone totalIters : Nat) :
    (dseToDevexSwitchCondition allowSwitch mode costlyDseFq itersDone totalIters = true ↔
      (allowSwitch = true ∧ mode = DualEdgeWeightMode.STEEPEST_EDGE ∧
        5 / 100 < costlyDseFq ∧ (1 / 10 : ℚ) * (totalIters : ℚ) < (itersDone : ℚ))) ∧
    (dseToDevexSwitchCondition allowSwitch mode costlyDseFq itersDone totalIters = true →
      dseMonitorMode allowSwitch mode costlyDseFq itersDone totalIters =
        DualEdgeWeightMode.DEVEX) ∧
    (dseToDevexSwitchCondition allowSwitch mode costlyDseFq itersDone totalIters = false →
      dseMonitorMode allowSwitch mode costlyDseFq itersDone totalIters = mode) := by
  refine ⟨?_, ?_, ?_⟩
  · unfold dseToDevexSwitchCondition AnIterFracNumCostlyDseItbfSw AnIterFracNumTot_ItBfSw
    constructor
    · intro h
      simp only [Bool.and_eq_true, decide_eq_true_eq] at h
      refine ⟨h.1.1.1, h.1.1.2, by linarith [h.1.2], by linarith [h.2]⟩
    · intro ⟨h1, h2, h3, h4⟩
      simp only [Bool.and_eq_true, decide_eq_true_eq]
      exact ⟨⟨⟨h1, h2⟩, by linarith⟩, by linarith⟩
  · intro h
    unfold dseMonitorMode
    rw [h]
    rfl
  · intro h
    unfold dseMonitorMode
    rw [h]
    rfl

/-- Witness for C10 at a concrete firing instance: permitted, in STEEPEST_EDGE
mode, frequency 1/10 > 5 percent, 3 iterations done of 20 total. -/
theorem claim_C10_witness :
    dseMonitorMode true DualEdgeWeightMode.STEEPEST_EDGE (1 / 10) 3 20 =
      DualEdgeWeightMode.DEVEX :=
  (claim_C10_costly_dse_switch true DualEdgeWeightMode.STEEPEST_EDGE
    (1 / 10) 3 20).2.1 (by
      norm_num [dseToDevexSwitchCondition, AnIterFracNumCostlyDseItbfSw,
        AnIterFracNumTot_ItBfSw])

/- ===================================================================
   Theorems: C7
   =================================================================== -/

/-- C7: the LP action signals are exactly the eleven enumerators DUALISE,
PERMUTE, SCALE, NEW_COSTS, NEW_BOUNDS, NEW_BASIS, NEW_COLS, NEW_ROWS,
DEL_COLS, DEL_ROWS, DEL_ROWS_BASIS_OK, coded 0..10 in this order, and
`update_simplex_lp_status` applied to any action only ever clears booleans
among the ten listed status flags, leaving every other field of the simplex
LP status unchanged. -/
theorem claim_C7_lp_actions_and_status_clearing :
    (LpAction.toCode LpAction.DUALISE = 0 ∧
     LpAction.toCode LpAction.PERMUTE = 1 ∧
     LpAction.toCode LpAction.SCALE = 2 ∧
     LpAction.toCode LpAction.NEW_COSTS = 3 ∧
     LpAction.toCode LpAction.NEW_BOUNDS = 4 ∧
     LpAction.toCode LpAction.NEW_BASIS = 5 ∧
     LpAction.toCode LpAction.NEW_COLS = 6 ∧
     LpAction.toCode LpAction.NEW_ROWS = 7 ∧
     LpAction.toCode LpAction.DEL_COLS = 8 ∧
     LpAction.toCode LpAction.DEL_ROWS = 9 ∧
     LpAction.toCode LpAction.DEL_ROWS_BASIS_OK = 10) ∧
    (∀ a : LpAction, LpAction.toCode a < 11) ∧
    (∀ a b : LpAction, LpAction.toCode a = LpAction.toCode b → a = b) ∧
    (∀ k : Nat, k < 11 → ∃ a : LpAction, LpAction.toCode a = k) ∧
    (∀ (σ : Type) (clears : LpAction → SimplexStatusClearMask)
       (s : HighsSimplexLpStatus σ) (action : LpAction),
       (update_simplex_lp_status clears s action).valid = s.valid ∧
       (update_simplex_lp_status clears s action).is_dualised = s.is_dualised ∧
       (update_simplex_lp_status clears s action).is_permuted = s.is_permuted ∧
       (update_simplex_lp_status clears s action).scaling_tried = s.scaling_tried ∧
       (update_simplex_lp_status clears s action).has_dual_objective_value
         = s.has_dual_objective_value ∧
       (update_simplex_lp_status clears s action).has_primal_objective_value
         = s.has_primal_objective_value ∧
       (update_simplex_lp_status clears s action).solution_status
         = s.solution_status ∧
       ((update_simplex_lp_status clears s action).has_basis = true →
         s.has_basis = true) ∧
       ((update_simplex_lp_status clears s action).has_matrix_col_wise = true →
         s.has_matrix_col_wise = true) ∧
       ((update_simplex_lp_status clears s action).has_matrix_row_wise = true →
         s.has_matrix_row_wise = true) ∧
       ((update_simplex_lp_status clears s action).has_factor_arrays = true →
         s.has_factor_arrays = true) ∧
       ((update_simplex_lp_status clears s action).has_dual_steepest_edge_weights = true →
         s.has_dual_steepest_edge_weights = true) ∧
       ((update_simplex_lp_status clears s action).has_nonbasic_dual_values = true →
         s.has_nonbasic_dual_values = true) ∧
       ((update_simplex_lp_status clears s action).has_basic_primal_values = true →
         s.has_basic_primal_values = true) ∧
       ((update_simplex_lp_status clears s action).has_invert = true →
         s.has_invert = true) ∧
       ((update_simplex_lp_status clears s action).has_fresh_invert = true →
         s.has_fresh_invert = true) ∧
       ((update_simplex_lp_status clears s action).has_fresh_rebuild = true →
         s.has_fresh_rebuild = true)) := by
  refine ⟨⟨rfl, rfl, rfl, rfl, rfl, rfl, rfl, rfl, rfl, rfl, rfl⟩,
    by decide, by decide, by decide, ?_⟩
  intro σ clears s action
  unfold update_simplex_lp_status
  refine ⟨rfl, rfl, rfl, rfl, rfl, rfl, rfl, ?_, ?_, ?_, ?_, ?_, ?_, ?_, ?_, ?_, ?_⟩
  all_goals
    intro h
    rw [Bool.and_eq_true] at h
    exact h.1

/-- Witness for C7: the injectivity part discharged at SCALE/NEW_BASIS, and
the frame part at a concrete status over the unit solution-status type with
a mask that clears has_basis only, on action NEW_COSTS. -/
theorem claim_C7_witness :
    (LpAction.toCode LpAction.SCALE = LpAction.toCode LpAction.NEW_BASIS →
      LpAction.SCALE = LpAction.NEW_BASIS) ∧
    ((update_simplex_lp_status
        (fun _ => { has_basis := true, has_matrix_col_wise := false,
                    has_matrix_row_wise := false, has_factor_arrays := false,
                    has_dual_steepest_edge_weights := false,
                    has_nonbasic_dual_values := false,
                    has_basic_primal_values := false, has_invert := false,
                    has_fresh_invert := false, has_fresh_rebuild := false })
        { valid := true, is_dualised := false, is_permuted := false,
          scaling_tried := true, has_basis := true,
          has_matrix_col_wise := true, has_matrix_row_wise := true,
          has_factor_arrays := true, has_dual_steepest_edge_weights := true,
          has_nonbasic_dual_values := true, has_basic_primal_values := true,
          has_invert := true, has_fresh_invert := true,
          has_fresh_rebuild := true, has_dual_objective_value := true,
          has_primal_objective_value := true, solution_status := () }
        LpAction.NEW_COSTS).has_fresh_rebuild = true →
      ({ valid := true, is_dualised := false, is_permuted := false,
          scaling_tried := true, has_basis := true,
          has_matrix_col_wise := true, has_matrix_row_wise := true,
          has_factor_arrays := true, has_dual_steepest_edge_weights := true,
          has_nonbasic_dual_values := true, has_basic_primal_values := true,
          has_invert := true, has_fresh_invert := true,
          has_fresh_rebuild := true, has_dual_objective_value := true,
          has_primal_objective_value := true,
          solution_status := () } : HighsSimplexLpStatus Unit).has_fresh_rebuild
        = true) :=
  ⟨claim_C7_lp_actions_and_status_clearing.2.2.1 LpAction.SCALE LpAction.NEW_BASIS,
   (claim_C7_lp_actions_and_status_clearing.2.2.2.2 Unit _ _
      LpAction.NEW_COSTS).2.2.2.2.2.2.2.2.2.2.2.2.2.2.2.2⟩

/- ===================================================================
   Theorems: C4
   =================================================================== -/

/-- A problem with a row whose bounds differ is not an equality problem. -/
theorem isEqualityProblem_eq_false_of_row (lp : HighsLp) (i : Nat)
    (hi : i < lp.numRow) (hne : lp.rowLower.getD i 0 ≠ lp.rowUpper.getD i 0) :
    isEqualityProblem lp = false := by
  unfold isEqualityProblem
  rw [Bool.eq_false_iff]
  intro hall
  rw [List.all_eq_true] at hall
  exact hne (by simpa using hall i (List.mem_range.mpr hi))

/-- C4: `runFeasibility` returns NotImplemented, with no penalty-minimisation
iteration performed, whenever some row has differing bounds (the LP is not an
equality problem, whatever the requested minimisation type), and likewise on
an equality problem whenever the requested type is exact minimisation. -/
theorem claim_C4_runFeasibility_not_implemented
    (consistent : HighsLp → HighsSolution → Bool)
    (componentWisePhase : HighsLp → HighsSolution → ℚ → List ℚ → HighsStatus × Nat)
    (lp : HighsLp) (sol : HighsSolution) :
    ((∃ i, i < lp.numRow ∧ lp.rowLower.getD i 0 ≠ lp.rowUpper.getD i 0) →
      ∀ type : MinimizationType,
        runFeasibility consistent componentWisePhase lp sol type =
          (HighsStatus.NotImplemented, 0)) ∧
    (isEqualityProblem lp = true →
      runFeasibility consistent componentWisePhase lp sol MinimizationType.kExact =
        (HighsStatus.NotImplemented, 0)) := by
  constructor
  · intro ⟨i, hi, hne⟩ type
    have h := isEqualityProblem_eq_false_of_row lp i hi hne
    unfold runFeasibility
    simp [h]
  · intro h
    unfold runFeasibility
    simp [h]

/-- Witness for C4 at two concrete LPs: one with row bounds [0,1] (not an
equality problem) under component-wise minimisation, and one with row bounds
[0,0] (an equality problem) under exact minimisation. -/
theorem claim_C4_witness :
    runFeasibility (fun _ _ => true) (fun _ _ _ _ => (HighsStatus.OK, 7))
        { numCol := 0, numRow := 1, Astart := [0], Aindex := [], Avalue := [],
          colCost := [], colLower := [], colUpper := [], rowLower := [0],
          rowUpper := [1], sense := 1 }
        { col_value := [], col_dual := [], row_value := [], row_dual := [] }
        MinimizationType.kComponentWise = (HighsStatus.NotImplemented, 0) ∧
    runFeasibility (fun _ _ => true) (fun _ _ _ _ => (HighsStatus.OK, 7))
        { numCol := 0, numRow := 1, Astart := [0], Aindex := [], Avalue := [],
          colCost := [], colLower := [], colUpper := [], rowLower := [0],
          rowUpper := [0], sense := 1 }
        { col_value := [], col_dual := [], row_value := [], row_dual := [] }
        MinimizationType.kExact = (HighsStatus.NotImplemented, 0) :=
  ⟨(claim_C4_runFeasibility_not_implemented _ _ _ _).1
      ⟨0, Nat.zero_lt_one, by norm_num⟩ MinimizationType.kComponentWise,
   (claim_C4_runFeasibility_not_implemented _ _ _ _).2
      (by simp [isEqualityProblem])⟩

/- ===================================================================
   Theorems: C5
   =================================================================== -/

/-- The branch chain of the column loop of `initialize` always produces a
value: its error branch requires the column bounds to violate the exhaustive
trichotomy, which is impossible for (NaN-free) rational bounds. -/
theorem colStartingValue_ne_none (L U : ℚ) :
    colStartingValue L U ≠ none := by
  unfold colStartingValue
  split
  · exact Option.some_ne_none 0
  · split
    · exact Option.some_ne_none L
    · split
      · exact Option.some_ne_none U
      · rename_i h1 h2 h3
        exact absurd ⟨by linarith [not_lt.mp h2], by linarith [not_lt.mp h3]⟩ h1

/-- Value of the branch chain when the lower bound is positive. -/
theorem colStartingValue_of_lower_pos (L U : ℚ) (h : 0 < L) :
    colStartingValue L U = some L := by
  unfold colStartingValue
  rw [if_neg (by intro hc; linarith [hc.1]), if_pos h]

/-- Value of the branch chain when zero is within the bounds. -/
theorem colStartingValue_of_zero_in (L U : ℚ) (hL : L ≤ 0) (hU : 0 ≤ U) :
    colStartingValue L U = some 0 := by
  unfold colStartingValue
  rw [if_pos ⟨hL, hU⟩]

/-- Value of the branch chain when the upper bound is negative (and the lower
bound does not take precedence). -/
theorem colStartingValue_of_upper_neg (L U : ℚ) (hU : U < 0) (hL : L ≤ 0) :
    colStartingValue L U = some U := by
  unfold colStartingValue
  rw [if_neg (by intro hc; linarith [hc.2]), if_neg (by linarith), if_pos hU]

/-- The column loop of `initialize` never takes its error branch and sets
every processed in-range position to the starting value of its column,
leaving all other positions unchanged. -/
theorem initLoop_ok (lp : HighsLp) :
    ∀ (rem col : Nat) (cv : List ℚ), ∃ cv',
      initLoop lp col rem cv = Except.ok cv' ∧
      cv'.length = cv.length ∧
      (∀ j, j < col → cv'.getD j 0 = cv.getD j 0) ∧
      (∀ j, col + rem ≤ j → cv'.getD j 0 = cv.getD j 0) ∧
      (∀ j, col ≤ j → j < col + rem → j < cv.length →
        colStartingValue (lp.colLower.getD j 0) (lp.colUpper.getD j 0)
          = some (cv'.getD j 0)) := by
  intro rem
  induction rem with
  | zero =>
    intro col cv
    exact ⟨cv, rfl, rfl, fun _ _ => rfl, fun _ _ => rfl,
      fun j h1 h2 _ => absurd h2 (by omega)⟩
  | succ rem ih =>
    intro col cv
    obtain ⟨x, hx⟩ := Option.ne_none_iff_exists.mp
      (colStartingValue_ne_none (lp.colLower.getD col 0) (lp.colUpper.getD col 0))
    obtain ⟨cv', hrun, hlen, hbelow, habove, hmid⟩ := ih (col + 1) (cv.set col x)
    refine ⟨cv', ?_, ?_, ?_, ?_, ?_⟩
    · simp only [initLoop, ← hx]
      exact hrun
    · rw [hlen, List.length_set]
    · intro j hj
      rw [hbelow j (by omega), List.getD_eq_getElem?_getD,
        List.getElem?_set_ne (by omega), ← List.getD_eq_getElem?_getD]
    · intro j hj
      rw [habove j (by omega), List.getD_eq_getElem?_getD,
        List.getElem?_set_ne (by omega), ← List.getD_eq_getElem?_getD]
    · intro j hj1 hj2 hj3
      rcases Nat.eq_or_lt_of_le hj1 with heq | hlt
      · subst heq
        have hset : (cv.set col x).getD col 0 = x := by
          rw [List.getD_eq_getElem?_getD, List.getElem?_set_self hj3]
          rfl
        rw [hbelow col (by omega), hset, ← hx]
      · exact hmid j hlt (by omega) (by rw [List.length_set]; exact hj3)

/-- C5 (amended): for every LP (rational bounds carry no NaN),
`initialize` returns OK — its error branch is unreachable — sets `lambda` to
the zero vector of length `numRow_`, and sets each starting value
`col_value[j]` to 0 when `colLower_[j] ≤ 0 ≤ colUpper_[j]`, to `colLower_[j]`
when `colLower_[j] > 0`, and to `colUpper_[j]` when `colUpper_[j] < 0` and
`colLower_[j] ≤ 0` (when both `colLower_[j] > 0` and `colUpper_[j] < 0` — an
empty bound interval — the code gives the lower bound precedence).  The
consistency predicate is abstract; the spec comment on
`isSolutionConsistent` guarantees a consistent solution has `numCol_` column
values. -/
theorem claim_C5_initialize_starting_point
    (consistent : HighsLp → HighsSolution → Bool)
    (lp : HighsLp) (sol : HighsSolution) (mu0 : ℚ) (lambda0 : List ℚ)
    (hc : consistent lp sol = true → sol.col_value.length = lp.numCol) :
    (initializeSolution consistent lp sol mu0 lambda0).1 = HighsStatus.OK ∧
    (initializeSolution consistent lp sol mu0 lambda0).2.2.2
      = List.replicate lp.numRow 0 ∧
    (initializeSolution consistent lp sol mu0 lambda0).2.1.col_value.length
      = lp.numCol ∧
    (∀ j, j < lp.numCol →
      (lp.colLower.getD j 0 ≤ 0 → 0 ≤ lp.colUpper.getD j 0 →
        (initializeSolution consistent lp sol mu0 lambda0).2.1.col_value.getD j 0
          = 0) ∧
      (0 < lp.colLower.getD j 0 →
        (initializeSolution consistent lp sol mu0 lambda0).2.1.col_value.getD j 0
          = lp.colLower.getD j 0) ∧
      (lp.colUpper.getD j 0 < 0 → lp.colLower.getD j 0 ≤ 0 →
        (initializeSolution consistent lp sol mu0 lambda0).2.1.col_value.getD j 0
          = lp.colUpper.getD j 0)) := by
  have hlen0 : (clearedSolution consistent lp sol).col_value.length
      = lp.numCol := by
    unfold clearedSolution
    split
    · rename_i h
      exact hc h
    · exact List.length_replicate _ _
  obtain ⟨cv', hrun, hlen, _, _, hmid⟩ := initLoop_ok lp lp.numCol 0
    (clearedSolution consistent lp sol).col_value
  have hres : initializeSolution consistent lp sol mu0 lambda0
      = (HighsStatus.OK,
          { clearedSolution consistent lp sol with col_value := cv' },
          chooseStartingMu lp, List.replicate lp.numRow 0) := by
    unfold initializeSolution
    rw [hrun]
  rw [hres]
  refine ⟨rfl, rfl, by simpa [hlen0] using hlen, ?_⟩
  intro j hj
  have hj3 : j < _ := hlen0 ▸ hj
  have hval := hmid j (Nat.zero_le j) (by omega) hj3
  refine ⟨?_, ?_, ?_⟩
  · intro h1 h2
    have := (colStartingValue_of_zero_in _ _ h1 h2).symm.trans hval
    exact (Option.some_inj.mp this).symm
  · intro h1
    have := (colStartingValue_of_lower_pos _ _ h1).symm.trans hval
    exact (Option.some_inj.mp this).symm
  · intro h1 h2
    have := (colStartingValue_of_upper_neg _ _ h1 h2).symm.trans hval
    exact (Option.some_inj.mp this).symm

/-- Counterexample for C5 as stated: on the LP with a single column whose
bounds are inverted (colLower = 1 > 0 > -1 = colUpper, no NaN anywhere), the
code takes the positive-lower-bound branch first and sets the starting value
to 1 = colLower, so the claim's unconditional clause "col_value[j] =
colUpper_[j] if colUpper_[j] < 0" fails. -/
theorem claim_C5_counterexample :
    ({ numCol := 1, numRow := 0, Astart := [0, 0], Aindex := [], Avalue := [],
       colCost := [0], colLower := [1], colUpper := [-1], rowLower := [],
       rowUpper := [], sense := 1 } : HighsLp).colUpper.getD 0 0 < 0 ∧
    (initializeSolution (fun _ _ => false)
        { numCol := 1, numRow := 0, Astart := [0, 0], Aindex := [], Avalue := [],
          colCost := [0], colLower := [1], colUpper := [-1], rowLower := [],
          rowUpper := [], sense := 1 }
        { col_value := [], col_dual := [], row_value := [], row_dual := [] }
        0 []).2.1.col_value.getD 0 0
      ≠ ({ numCol := 1, numRow := 0, Astart := [0, 0], Aindex := [], Avalue := [],
           colCost := [0], colLower := [1], colUpper := [-1], rowLower := [],
           rowUpper := [], sense := 1 } : HighsLp).colUpper.getD 0 0 := by
  constructor
  · norm_num
  · have hrun : initLoop
        { numCol := 1, numRow := 0, Astart := [0, 0], Aindex := [], Avalue := [],
          colCost := [0], colLower := [1], colUpper := [-1], rowLower := [],
          rowUpper := [], sense := 1 } 0 1 [0] = Except.ok [1] := by
      norm_num [initLoop, colStartingValue]
    norm_num [initializeSolution, clearedSolution, hrun]

/-- Witness for C5 (amended) at a concrete LP with three columns covering the
three branches: bounds [-1,5] give 0, bounds [2,4] give 2, bounds [-3,-2]
give -2; lambda becomes the two zeroes of the two rows. -/
theorem claim_C5_witness :
    (initializeSolution (fun _ _ => false)
        { numCol := 3, numRow := 2, Astart := [0, 0, 0, 0], Aindex := [],
          Avalue := [], colCost := [0, 0, 0], colLower := [-1, 2, -3],
          colUpper := [5, 4, -2], rowLower := [0, 0], rowUpper := [0, 0],
          sense := 1 }
        { col_value := [], col_dual := [], row_value := [], row_dual := [] }
        0 []).1 = HighsStatus.OK ∧
    (initializeSolution (fun _ _ => false)
        { numCol := 3, numRow := 2, Astart := [0, 0, 0, 0], Aindex := [],
          Avalue := [], colCost := [0, 0, 0], colLower := [-1, 2, -3],
          colUpper := [5, 4, -2], rowLower := [0, 0], rowUpper := [0, 0],
          sense := 1 }
        { col_value := [], col_dual := [], row_value := [], row_dual := [] }
        0 []).2.2.2 = List.replicate 2 0 :=
  ⟨(claim_C5_initialize_starting_point (fun _ _ => false) _ _ 0 []
      (fun h => absurd h (by simp))).1,
   (claim_C5_initialize_starting_point (fun _ _ => false) _ _ 0 []
      (fun h => absurd h (by simp))).2.1⟩

/- ===================================================================
   Theorems: C6
   =================================================================== -/

/-- Every member of a list chained upward from `a` is at least `a`. -/
theorem le_of_chain_le {α : Type} [LinearOrder α] (a : α) :
    ∀ l : List α, List.Chain (· ≤ ·) a l → ∀ x ∈ l, a ≤ x := by
  intro l
  induction l generalizing a with
  | nil =>
    intro _ x hx
    simp at hx
  | cons b t ih =>
    intro h x hx
    rw [List.chain_cons] at h
    rcases List.mem_cons.mp hx with rfl | hx2
    · exact h.1
    · exact le_trans h.1 (ih b h.2 x hx2)

/-- A chain of inequalities starting at `a` is the same as an internally
non-decreasing list all of whose members are at least `a`. -/
theorem chain_le_iff_chain_and_mem {α : Type} [LinearOrder α] (a : α)
    (l : List α) : List.Chain (· ≤ ·) a l ↔
      (List.Chain' (· ≤ ·) l ∧ ∀ x ∈ l, a ≤ x) := by
  constructor
  · intro h
    refine ⟨?_, le_of_chain_le a l h⟩
    cases l with
    | nil => trivial
    | cons b t => exact (List.chain_cons.mp h).2
  · intro ⟨hc, hmem⟩
    cases l with
    | nil => exact List.Chain.nil
    | cons b t =>
      rw [List.chain_cons]
      exact ⟨hmem b (List.mem_cons_self b t), hc⟩

/-- The scanning loop of `increasing_set_ok` accepts exactly the lists that
chain upward from the initial previous entry and (when bounds are checked)
stay at most the upper bound. -/
theorem increasingLoop_eq_true_iff {α : Type} [LinearOrder α] (hb : Bool)
    (hi : α) :
    ∀ (l : List α) (prev : α),
      increasingLoop hb hi prev l = true ↔
        (List.Chain (· ≤ ·) prev l ∧ (hb = true → ∀ x ∈ l, x ≤ hi)) := by
  intro l
  induction l with
  | nil =>
    intro prev
    simp [increasingLoop]
  | cons e rest ih =>
    intro prev
    by_cases h1 : e < prev
    · rw [show increasingLoop hb hi prev (e :: rest) = false by
        unfold increasingLoop
        rw [if_pos h1]]
      constructor
      · intro hf
        exact absurd hf (by simp)
      · rintro ⟨hchain, _⟩
        exact absurd (List.rel_of_chain_cons hchain) (not_le.mpr h1)
    · have hpe : prev ≤ e := not_lt.mp h1
      cases hhb : (hb && decide (hi < e)) with
      | true =>
        rw [show increasingLoop hb hi prev (e :: rest) = false by
          unfold increasingLoop
          rw [if_neg h1, if_pos hhb]]
        rw [Bool.and_eq_true, decide_eq_true_eq] at hhb
        constructor
        · intro hf
          exact absurd hf (by simp)
        · rintro ⟨_, hbound⟩
          exact absurd (hbound hhb.1 e (List.mem_cons_self e rest))
            (not_le.mpr hhb.2)
      | false =>
        unfold increasingLoop
        rw [if_neg h1, if_neg (by simp [hhb]), ih e, List.chain_cons]
        constructor
        · rintro ⟨hchain, hbound⟩
          refine ⟨⟨hpe, hchain⟩, ?_⟩
          intro hhb2 x hx
          rcases List.mem_cons.mp hx with rfl | hx2
          · refine not_lt.mp ?_
            intro hlt
            rw [hhb2] at hhb
            simp [hlt] at hhb
          · exact hbound hhb2 x hx2
        · rintro ⟨⟨_, hchain⟩, hbound⟩
          exact ⟨hchain, fun hhb2 x hx =>
            hbound hhb2 x (List.mem_cons_of_mem e hx)⟩

/-- Full characterisation of `increasing_set_ok` on a non-null array holding
exactly its claimed number of entries. -/
theorem increasing_set_ok_length_iff {α : Type} [LinearOrder α]
    (negInf : α) (l : List α) (lo hi : α) :
    increasing_set_ok negInf (some l) (l.length : Int) lo hi = true ↔
      (List.Chain' (· ≤ ·) l ∧
       (lo ≤ hi → ∀ x ∈ l, lo ≤ x ∧ x ≤ hi) ∧
       (¬ lo ≤ hi → ∀ x ∈ l.head?, negInf ≤ x)) := by
  have htake : l.take ((l.length : Int)).toNat = l := by
    rw [Int.toNat_natCast, List.take_length]
  unfold increasing_set_ok
  rw [if_neg (by simp : ¬ ((l.length : Int) < 0))]
  show increasingLoop (decide (lo ≤ hi)) hi
      (if decide (lo ≤ hi) = true then lo else negInf)
      (l.take ((l.length : Int)).toNat) = true ↔ _
  rw [htake]
  by_cases hlohi : lo ≤ hi
  · rw [show (decide (lo ≤ hi)) = true by simp [hlohi], if_pos rfl,
      increasingLoop_eq_true_iff, chain_le_iff_chain_and_mem]
    constructor
    · rintro ⟨⟨hc, hmemlo⟩, hmemhi⟩
      refine ⟨hc, fun _ x hx => ⟨hmemlo x hx, hmemhi rfl x hx⟩, fun hn => absurd hlohi hn⟩
    · rintro ⟨hc, hbnd, _⟩
      exact ⟨⟨hc, fun x hx => (hbnd hlohi x hx).1⟩,
        fun _ x hx => (hbnd hlohi x hx).2⟩
  · rw [show (decide (lo ≤ hi)) = false by simp [hlohi],
      if_neg (by simp : ¬ ((false : Bool) = true)),
      increasingLoop_eq_true_iff, chain_le_iff_chain_and_mem]
    constructor
    · rintro ⟨⟨hc, hmem⟩, _⟩
      refine ⟨hc, fun h => absurd h hlohi, fun _ x hx => ?_⟩
      cases l with
      | nil => simp at hx
      | cons c t =>
        have hxc : c = x := by simpa using hx
        subst hxc
        exact hmem c (List.mem_cons_self c t)
    · rintro ⟨hc, _, hhead⟩
      refine ⟨⟨hc, ?_⟩, fun hf => absurd hf (by simp)⟩
      intro x hx
      cases l with
      | nil => simp at hx
      | cons c t =>
        have hnc : negInf ≤ c := hhead hlohi c rfl
        have hchain : List.Chain (· ≤ ·) c t := hc
        rcases List.mem_cons.mp hx with rfl | hx2
        · exact hnc
        · exact le_trans hnc (le_of_chain_le c t hchain x hx2)

/-- C6 (amended): `increasing_set_ok` (either overload, sentinel
`negInf` = -HIGHS_CONST_I_INF resp. -HIGHS_CONST_INF) returns true iff the
set is non-null, the entry count is non-negative, the scanned entries are
pairwise non-decreasing, and: when lower ≤ upper every entry lies in
[lower, upper]; when lower > upper the running predecessor starts at the
sentinel instead, so in addition to the ordering the first entry must be at
least `negInf` (entries below the sentinel are rejected even though no
caller-supplied bound is violated). -/
theorem claim_C6_increasing_set_ok (intInf : ℤ) (ratInf : ℚ) :
    (∀ (l : List ℤ) (lo hi : ℤ),
      increasing_set_ok_int intInf (some l) (l.length : Int) lo hi = true ↔
        (List.Chain' (· ≤ ·) l ∧
         (lo ≤ hi → ∀ x ∈ l, lo ≤ x ∧ x ≤ hi) ∧
         (¬ lo ≤ hi → ∀ x ∈ l.head?, intInf ≤ x))) ∧
    (∀ (l : List ℚ) (lo hi : ℚ),
      increasing_set_ok_double ratInf (some l) (l.length : Int) lo hi = true ↔
        (List.Chain' (· ≤ ·) l ∧
         (lo ≤ hi → ∀ x ∈ l, lo ≤ x ∧ x ≤ hi) ∧
         (¬ lo ≤ hi → ∀ x ∈ l.head?, ratInf ≤ x))) ∧
    (∀ (oset : Option (List ℤ)) (n : Int) (lo hi : ℤ), n < 0 →
      increasing_set_ok_int intInf oset n lo hi = false) ∧
    (∀ (oset : Option (List ℚ)) (n : Int) (lo hi : ℚ), n < 0 →
      increasing_set_ok_double ratInf oset n lo hi = false) ∧
    (∀ (n : Int) (lo hi : ℤ),
      increasing_set_ok_int intInf none n lo hi = false) ∧
    (∀ (n : Int) (lo hi : ℚ),
      increasing_set_ok_double ratInf none n lo hi = false) := by
  refine ⟨fun l lo hi => increasing_set_ok_length_iff intInf l lo hi,
    fun l lo hi => increasing_set_ok_length_iff ratInf l lo hi,
    ?_, ?_, ?_, ?_⟩
  · intro oset n lo hi hn
    unfold increasing_set_ok_int increasing_set_ok
    rw [if_pos hn]
  · intro oset n lo hi hn
    unfold increasing_set_ok_double increasing_set_ok
    rw [if_pos hn]
  · intro n lo hi
    unfold increasing_set_ok_int increasing_set_ok
    split
    · rfl
    · rfl
  · intro n lo hi
    unfold increasing_set_ok_double increasing_set_ok
    split
    · rfl
    · rfl

/-- Counterexample for C6 as stated: whatever the (non-negative) value of the
int infinity constant, passing the singleton set consisting of the entry
-HIGHS_CONST_I_INF - 1 with lower bound 1 > 0 upper bound makes the int
overload return false although the set is non-null, the count 1 is
non-negative and a singleton is trivially in increasing order — so with
lower > upper the function checks more than "only the ordering". -/
theorem claim_C6_counterexample :
    ¬ ∀ (intInf : ℤ), 0 ≤ intInf →
        (List.Chain' (· ≤ ·) [intInf - 1] →
          increasing_set_ok_int intInf (some [intInf - 1]) 1 1 0 = true) := by
  intro h
  have hres := h 0 (le_refl 0) (by simp)
  have : increasing_set_ok_int 0 (some [(0 : ℤ) - 1]) 1 1 0 = false := by decide
  rw [this] at hres
  exact absurd hres (by simp)

/-- Witness for C6 (amended): the bounded case accepts an ordered in-bounds
set, and the negative-count and null clauses fire on concrete inputs. -/
theorem claim_C6_witness :
    increasing_set_ok_int (-1000) (some [1, 2, 2, 7])
      (([(1 : ℤ), 2, 2, 7].length : Int)) 0 9 = true ∧
    increasing_set_ok_int (-1000) (some [3]) (-1) 0 5 = false ∧
    increasing_set_ok_double (-1000) none 2 0 5 = false :=
  ⟨((claim_C6_increasing_set_ok (-1000) (-1000)).1 [1, 2, 2, 7] 0 9).mpr
      ⟨by simp [List.chain'_cons], by decide, by decide⟩,
   (claim_C6_increasing_set_ok (-1000) (-1000)).2.2.1 (some [3]) (-1) 0 5
     (by decide),
   (claim_C6_increasing_set_ok (-1000) (-1000)).2.2.2.2.2 2 0 5⟩

/- ===================================================================
   Theorems: C1 — basic list and subtree lemmas
   =================================================================== -/

section HeapsortBasics

variable {α : Type} (leB : α → α → Bool) (d : α)

/-- Setting one position leaves reads elsewhere unchanged. -/
theorem hs_getD_set_ne (l : List α) (i j : Nat) (a : α) (h : i ≠ j) :
    (l.set i a).getD j d = l.getD j d := by
  rw [List.getD_eq_getElem?_getD, List.getElem?_set_ne h,
    ← List.getD_eq_getElem?_getD]

/-- Reading an in-range position just set yields the written value. -/
theorem hs_getD_set_self (l : List α) (i : Nat) (a : α) (h : i < l.length) :
    (l.set i a).getD i d = a := by
  rw [List.getD_eq_getElem?_getD, List.getElem?_set_self h]
  rfl

/-- Writing back the value read from an in-range position is a no-op. -/
theorem hs_set_getD_self (l : List α) (i : Nat) (h : i < l.length) :
    l.set i (l.getD i d) = l := by
  apply List.ext_getElem?
  intro k
  by_cases hk : i = k
  · subst hk
    rw [List.getElem?_set_self h, List.getD_eq_getElem?_getD,
      List.getElem?_eq_getElem h]
    rfl
  · rw [List.getElem?_set_ne hk]

/-- Every node is in its own subtree. -/
theorem inSub_refl (i : Nat) : inSub i i :=
  ⟨0, by simp⟩

/-- The subtree root is at most any of its members. -/
theorem inSub_le (i k : Nat) (h : inSub i k) : i ≤ k := by
  obtain ⟨t, ht⟩ := h
  exact ht ▸ Nat.div_le_self k (2 ^ t)

/-- A child of a subtree member is a subtree member. -/
theorem inSub_child (i m c : Nat) (h : inSub i m) (hc : c / 2 = m) :
    inSub i c := by
  obtain ⟨t, ht⟩ := h
  refine ⟨t + 1, ?_⟩
  rw [pow_succ, mul_comm, ← Nat.div_div_eq_div_mul, hc, ht]

/-- Subtree membership is transitive. -/
theorem inSub_trans (i m k : Nat) (h1 : inSub i m) (h2 : inSub m k) :
    inSub i k := by
  obtain ⟨t, ht⟩ := h1
  obtain ⟨s, hs⟩ := h2
  refine ⟨s + t, ?_⟩
  rw [pow_add, mul_comm, ← Nat.div_div_eq_div_mul]
  rw [Nat.div_div_eq_div_mul, mul_comm, ← Nat.div_div_eq_div_mul, hs, ht]

/-- A strict subtree member is at least twice the root. -/
theorem inSub_ge_double (i k : Nat) (h : inSub i k) (hne : k ≠ i) :
    2 * i ≤ k := by
  obtain ⟨t, ht⟩ := h
  match t, ht with
  | 0, ht => exact absurd (by simpa using ht) hne
  | s + 1, ht =>
    have h1 : i * 2 ^ (s + 1) ≤ k := by
      rw [← ht]
      exact Nat.div_mul_le_self k (2 ^ (s + 1))
    calc 2 * i = i * 2 := by ring
    _ ≤ i * 2 ^ (s + 1) := by
        exact Nat.mul_le_mul_left i (by
          calc 2 = 2 ^ 1 := (pow_one 2).symm
          _ ≤ 2 ^ (s + 1) := Nat.pow_le_pow_right (by omega) (by omega))
    _ ≤ k := h1

/-- Every positive position is in the subtree of the root 1. -/
theorem inSub_one (k : Nat) (h : 1 ≤ k) : inSub 1 k := by
  refine ⟨Nat.log2 k, ?_⟩
  have hk : k ≠ 0 := by omega
  have h1 : 2 ^ Nat.log2 k ≤ k := Nat.log2_self_le hk
  have h2 : k < 2 ^ (Nat.log2 k + 1) := Nat.lt_log2_self
  have hlow : 1 ≤ k / 2 ^ Nat.log2 k := by
    rw [Nat.le_div_iff_mul_le (Nat.pos_pow_of_pos _ (by omega))]
    simpa using h1
  have hhigh : k / 2 ^ Nat.log2 k < 2 := by
    rw [Nat.div_lt_iff_lt_mul (Nat.pos_pow_of_pos _ (by omega))]
    calc k < 2 ^ (Nat.log2 k + 1) := h2
    _ = 2 ^ Nat.log2 k * 2 := by rw [pow_succ]
    _ = 2 * 2 ^ Nat.log2 k := by ring
  omega

/-- The chosen child is the original or its successor. -/
theorem pickChild_cases (v : List α) (j n : Nat) :
    pickChild leB d v j n = j ∨ pickChild leB d v j n = j + 1 := by
  unfold pickChild
  split
  · exact Or.inr rfl
  · exact Or.inl rfl

/-- The chosen child is at least the left child. -/
theorem pickChild_ge (v : List α) (j n : Nat) :
    j ≤ pickChild leB d v j n := by
  rcases pickChild_cases leB d v j n with h | h <;> omega

/-- The chosen child stays within the active bound. -/
theorem pickChild_le (v : List α) (j n : Nat) (h : j ≤ n) :
    pickChild leB d v j n ≤ n := by
  unfold pickChild
  split
  · rename_i hcond
    rw [Bool.and_eq_true] at hcond
    have := of_decide_eq_true hcond.1
    omega
  · exact h

/-- For an even left child the halving of the chosen child equals the hole. -/
theorem pickChild_halve (v : List α) (j n : Nat) (h : 2 ∣ j) :
    pickChild leB d v j n / 2 = j / 2 := by
  obtain ⟨m, rfl⟩ := h
  rcases pickChild_cases leB d v (2 * m) n with hc | hc <;> rw [hc] <;> omega

end HeapsortBasics

section HeapsortSift

variable {α : Type} (leB : α → α → Bool) (d : α)

/-- Reflexivity of a total boolean comparison. -/
theorem hs_leB_refl (htot : ∀ a b, leB a b = true ∨ leB b a = true) (a : α) :
    leB a a = true :=
  (htot a a).elim id id

/-- The chosen child dominates the left child. -/
theorem pickChild_left_le (htot : ∀ a b, leB a b = true ∨ leB b a = true)
    (v : List α) (j n : Nat) :
    leB (v.getD j d) (v.getD (pickChild leB d v j n) d) = true := by
  unfold pickChild
  split
  · rename_i hcond
    rw [Bool.and_eq_true, Bool.not_eq_true'] at hcond
    rcases htot (v.getD j d) (v.getD (j + 1) d) with h | h
    · exact h
    · rw [hcond.2] at h
      exact absurd h (by simp)
  · exact hs_leB_refl leB htot (v.getD j d)

/-- When the right child exists within the bound, the chosen child also
dominates it. -/
theorem pickChild_right_le (htot : ∀ a b, leB a b = true ∨ leB b a = true)
    (v : List α) (j n : Nat) (h : j + 1 ≤ n) :
    leB (v.getD (j + 1) d) (v.getD (pickChild leB d v j n) d) = true := by
  unfold pickChild
  split
  · exact hs_leB_refl leB htot (v.getD (j + 1) d)
  · rename_i hcond
    rw [Bool.and_eq_true, Bool.not_eq_true'] at hcond
    rcases Decidable.not_and_iff_or_not.mp hcond with h1 | h2
    · exact absurd (decide_eq_true_eq.mpr (by omega)) h1
    · exact by simpa using h2

/-- The sift-down loop preserves the array length. -/
theorem siftDown_length :
    ∀ (fuel : Nat) (v : List α) (temp : α) (j n : Nat),
      (siftDown leB d fuel v temp j n).length = v.length := by
  intro fuel
  induction fuel with
  | zero =>
    intro v temp j n
    exact List.length_set v (j / 2) temp
  | succ fuel ih =>
    intro v temp j n
    unfold siftDown
    split
    · split
      · exact List.length_set v _ temp
      · rw [ih, List.length_set]
    · exact List.length_set v (j / 2) temp

/-- The sift-down loop writes only inside the subtree of the initial hole
and inside the bound: every position outside is untouched. -/
theorem siftDown_untouched :
    ∀ (fuel : Nat) (v : List α) (temp : α) (j n : Nat),
      2 ≤ j → 2 ∣ j → j / 2 ≤ n →
      ∀ k, ¬ (inSub (j / 2) k ∧ k ≤ n) →
        (siftDown leB d fuel v temp j n).getD k d = v.getD k d := by
  intro fuel
  induction fuel with
  | zero =>
    intro v temp j n hj2 hdvd hjn k hk
    refine hs_getD_set_ne d v (j / 2) k temp ?_
    intro hcontra
    exact hk (hcontra ▸ ⟨inSub_refl _, hjn⟩)
  | succ fuel ih =>
    intro v temp j n hj2 hdvd hjn k hk
    unfold siftDown
    split
    · rename_i hloop
      have hchalve := pickChild_halve leB d v j n hdvd
      have hcle := pickChild_le leB d v j n hloop
      have hcge := pickChild_ge leB d v j n
      split
      · refine hs_getD_set_ne d v _ k temp ?_
        intro hcontra
        rw [← hcontra, hchalve] at hk
        exact hk ⟨inSub_refl _, hjn⟩
      · rw [ih (v.set (pickChild leB d v j n / 2) (v.getD (pickChild leB d v j n) d))
            temp (2 * pickChild leB d v j n) n (by omega) ⟨_, rfl⟩
            (by rw [Nat.mul_div_cancel_left _ (by omega : 0 < 2)]; exact hcle) k ?_]
        · refine hs_getD_set_ne d v _ k _ ?_
          intro hcontra
          rw [← hcontra, hchalve] at hk
          exact hk ⟨inSub_refl _, hjn⟩
        · rw [Nat.mul_div_cancel_left _ (by omega : 0 < 2)]
          intro ⟨hsub, hkn⟩
          refine hk ⟨?_, hkn⟩
          refine inSub_trans (j / 2) (pickChild leB d v j n) k ?_ hsub
          exact inSub_child (j / 2) (j / 2) _ (inSub_refl _) hchalve
    · refine hs_getD_set_ne d v (j / 2) k temp ?_
      intro hcontra
      exact hk (hcontra ▸ ⟨inSub_refl _, hjn⟩)

/-- `max_heapify` touches only the subtree of `i` within the bound. -/
theorem max_heapify_untouched (v : List α) (i n : Nat) (hi : 1 ≤ i)
    (hin : i ≤ n) :
    ∀ k, ¬ (inSub i k ∧ k ≤ n) →
      (max_heapify leB d v i n).getD k d = v.getD k d := by
  intro k hk
  unfold max_heapify
  have h2i : 2 * i / 2 = i := Nat.mul_div_cancel_left _ (by omega : 0 < 2)
  refine siftDown_untouched leB d (n + 1) v (v.getD i d) (2 * i) n
    (by omega) ⟨i, rfl⟩ (by rw [h2i]; exact hin) k (by rw [h2i]; exact hk)

/-- `max_heapify` preserves the array length. -/
theorem max_heapify_length (v : List α) (i n : Nat) :
    (max_heapify leB d v i n).length = v.length :=
  siftDown_length leB d (n + 1) v (v.getD i d) (2 * i) n

end HeapsortSift

section HeapsortPerm

variable {α : Type} (d : α)

/-- Replacing position `k` of `t` by `x` while extracting the old entry to
the front is a permutation of pushing `x` on the front. -/
theorem hs_cons_set_perm :
    ∀ (t : List α) (k : Nat) (x : α), k < t.length →
      List.Perm (x :: t) (t.getD k d :: t.set k x) := by
  intro t
  induction t with
  | nil =>
    intro k x hk
    simp at hk
  | cons y s ih =>
    intro k x hk
    match k with
    | 0 =>
      exact List.Perm.swap y x s
    | k + 1 =>
      have h1 : List.Perm (x :: y :: s) (y :: x :: s) := List.Perm.swap y x s
      have h2 : List.Perm (y :: x :: s) (y :: (s.getD k d :: s.set k x)) :=
        List.Perm.cons y (ih k x (by simpa using hk))
      have h3 : List.Perm (y :: (s.getD k d :: s.set k x))
          (s.getD k d :: y :: s.set k x) := List.Perm.swap (s.getD k d) y _
      exact (h1.trans h2).trans h3

/-- Swapping the entries at two in-range positions is a permutation. -/
theorem hs_set_swap_perm :
    ∀ (w : List α) (p q : Nat), p < w.length → q < w.length →
      List.Perm ((w.set p (w.getD q d)).set q (w.getD p d)) w := by
  have haux : ∀ (w : List α) (p q : Nat), p < q → p < w.length → q < w.length →
      List.Perm ((w.set p (w.getD q d)).set q (w.getD p d)) w := by
    intro w
    induction w with
    | nil =>
      intro p q _ hp _
      simp at hp
    | cons y s ih =>
      intro p q hpq hp hq
      match p, q with
      | 0, q + 1 =>
        have hq2 : q < s.length := by simpa using hq
        have hstep : ((y :: s).set 0 ((y :: s).getD (q + 1) d)).set (q + 1)
            ((y :: s).getD 0 d) = s.getD q d :: s.set q y := by
          simp [List.getD_cons_succ, List.getD_cons_zero]
        rw [hstep]
        exact (hs_cons_set_perm d s q y hq2).symm
      | p + 1, q + 1 =>
        have hstep : ((y :: s).set (p + 1) ((y :: s).getD (q + 1) d)).set (q + 1)
            ((y :: s).getD (p + 1) d)
            = y :: ((s.set p (s.getD q d)).set q (s.getD p d)) := by
          simp [List.getD_cons_succ]
        rw [hstep]
        exact List.Perm.cons y (ih p q (by omega) (by simpa using hp)
          (by simpa using hq))
  intro w p q hp hq
  rcases Nat.lt_trichotomy p q with h | h | h
  · exact haux w p q h hp hq
  · subst h
    rw [List.set_set, hs_set_getD_self d w p hp]
  · rw [List.set_comm _ _ _ (by omega)]
    have hx := haux w q p h hq hp
    exact hx

/-- Setting a position `a ≥ 1` of the array sets position `a - 1` of the
1-based segment. -/
theorem hs_seg_set (v : List α) (n a : Nat) (x : α) (ha : 1 ≤ a) :
    (((v.set a x).drop 1).take n) = (((v.drop 1).take n).set (a - 1) x) := by
  rw [List.drop_set, if_neg (by omega), List.set_take]

/-- Reading position `b` of the array through the 1-based segment. -/
theorem hs_seg_getD (v : List α) (n b : Nat) (hb1 : 1 ≤ b) (hbn : b ≤ n) :
    ((v.drop 1).take n).getD (b - 1) d = v.getD b d := by
  rw [List.getD_eq_getElem?_getD, List.getD_eq_getElem?_getD,
    List.getElem?_take, if_pos (by omega), List.getElem?_drop,
    show 1 + (b - 1) = b by omega]

/-- Swapping the entries at two in-range positions of the sorted segment
preserves the segment multiset. -/
theorem hs_seg_swap (v : List α) (n a b : Nat) (ha1 : 1 ≤ a) (han : a ≤ n)
    (hb1 : 1 ≤ b) (hbn : b ≤ n) (ha : a < v.length) (hb : b < v.length) :
    seg ((v.set a (v.getD b d)).set b (v.getD a d)) n = seg v n := by
  unfold seg
  rw [Multiset.coe_eq_coe]
  rw [hs_seg_set _ n b _ hb1, hs_seg_set v n a _ ha1,
    ← hs_seg_getD d v n b hb1 hbn, ← hs_seg_getD d v n a ha1 han]
  have hlen : a - 1 < ((v.drop 1).take n).length := by
    rw [List.length_take, List.length_drop]
    omega
  have hlen2 : b - 1 < ((v.drop 1).take n).length := by
    rw [List.length_take, List.length_drop]
    omega
  exact hs_set_swap_perm d _ _ _ hlen hlen2

end HeapsortPerm

section HeapsortPermRun

variable {α : Type} (leB : α → α → Bool) (d : α)

/-- The sift-down loop permutes the segment 1..N of the array with the hole
already plugged by `temp`: it cyclically shifts the entries along the hole
path, each step being a transposition inside the segment. -/
theorem siftDown_seg_perm :
    ∀ (fuel : Nat) (v : List α) (temp : α) (j n N : Nat),
      2 ≤ j → 2 ∣ j → j / 2 ≤ n → n ≤ N → N < v.length →
      seg (siftDown leB d fuel v temp j n) N = seg (v.set (j / 2) temp) N := by
  intro fuel
  induction fuel with
  | zero =>
    intro v temp j n N _ _ _ _ _
    rfl
  | succ fuel ih =>
    intro v temp j n N hj2 hdvd hjn hnN hNlen
    unfold siftDown
    split
    · rename_i hloop
      have hchalve := pickChild_halve leB d v j n hdvd
      have hcle := pickChild_le leB d v j n hloop
      have hcge := pickChild_ge leB d v j n
      split
      · rw [hchalve]
      · rw [ih (v.set (pickChild leB d v j n / 2) (v.getD (pickChild leB d v j n) d))
            temp (2 * pickChild leB d v j n) n N (by omega) ⟨_, rfl⟩
            (by rw [Nat.mul_div_cancel_left _ (by omega : 0 < 2)]; exact hcle)
            hnN (by rw [List.length_set]; exact hNlen)]
        rw [Nat.mul_div_cancel_left _ (by omega : 0 < 2), hchalve]
        have hne : j / 2 ≠ pickChild leB d v j n := by omega
        have hjlen : j / 2 < v.length := by omega
        have hclen : pickChild leB d v j n < v.length := by omega
        have hread : (v.set (j / 2) temp).getD (pickChild leB d v j n) d
            = v.getD (pickChild leB d v j n) d :=
          hs_getD_set_ne d v (j / 2) (pickChild leB d v j n) temp hne
        have hread2 : (v.set (j / 2) temp).getD (j / 2) d = temp :=
          hs_getD_set_self d v (j / 2) temp hjlen
        have hswap := hs_seg_swap d (v.set (j / 2) temp) N (j / 2)
          (pickChild leB d v j n) (by omega) (by omega) (by omega) (by omega)
          (by rw [List.length_set]; omega) (by rw [List.length_set]; omega)
        rw [hread, hread2, List.set_set] at hswap
        exact hswap
    · rfl

/-- `max_heapify` permutes the segment 1..N. -/
theorem max_heapify_seg_perm (v : List α) (i n N : Nat) (hi : 1 ≤ i)
    (hin : i ≤ n) (hnN : n ≤ N) (hNlen : N < v.length) :
    seg (max_heapify leB d v i n) N = seg v N := by
  unfold max_heapify
  have h2i : 2 * i / 2 = i := Nat.mul_div_cancel_left _ (by omega : 0 < 2)
  rw [siftDown_seg_perm leB d (n + 1) v (v.getD i d) (2 * i) n N (by omega)
    ⟨i, rfl⟩ (by omega) hnN hNlen, h2i,
    hs_set_getD_self d v i (by omega)]

/-- The heap-construction loop preserves the array length. -/
theorem buildLoop_length :
    ∀ (b n : Nat) (v : List α), (buildLoop leB d b n v).length = v.length := by
  intro b
  induction b with
  | zero =>
    intro n v
    rfl
  | succ b ih =>
    intro n v
    unfold buildLoop
    rw [ih, max_heapify_length]

/-- The heap-construction loop permutes the segment 1..n. -/
theorem buildLoop_seg_perm :
    ∀ (b n : Nat) (v : List α), b ≤ n → n < v.length →
      seg (buildLoop leB d b n v) n = seg v n := by
  intro b
  induction b with
  | zero =>
    intro n v _ _
    rfl
  | succ b ih =>
    intro n v hb hlen
    unfold buildLoop
    rw [ih n _ (by omega) (by rw [max_heapify_length]; exact hlen),
      max_heapify_seg_perm leB d v (b + 1) n n (by omega) hb (le_refl n) hlen]

/-- The sorting loop preserves the array length. -/
theorem sortLoop_length :
    ∀ (m : Nat) (v : List α), (sortLoop leB d m v).length = v.length := by
  intro m
  induction m using Nat.strong_induction_on with
  | _ m ih =>
    match m with
    | 0 => intro v; rfl
    | 1 => intro v; rfl
    | i + 2 =>
      intro v
      unfold sortLoop
      rw [ih (i + 1) (by omega), max_heapify_length, List.length_set,
        List.length_set]

/-- The sorting loop permutes the segment 1..n. -/
theorem sortLoop_seg_perm (n : Nat) :
    ∀ (m : Nat) (v : List α), m ≤ n → n < v.length →
      seg (sortLoop leB d m v) n = seg v n := by
  intro m
  induction m using Nat.strong_induction_on with
  | _ m ih =>
    match m with
    | 0 => intro v _ _; rfl
    | 1 => intro v _ _; rfl
    | i + 2 =>
      intro v hm hlen
      unfold sortLoop
      rw [ih (i + 1) (by omega) _ (by omega)
          (by rw [max_heapify_length, List.length_set, List.length_set]; exact hlen),
        max_heapify_seg_perm leB d _ 1 (i + 1) n (by omega) (by omega) (by omega)
          (by rw [List.length_set, List.length_set]; exact hlen),
        hs_seg_swap d v n (i + 2) 1 (by omega) (by omega) (by omega) (by omega)
          (by omega) (by omega)]

/-- `maxheapsort` permutes the segment 1..n and preserves the length. -/
theorem maxheapsort_seg_perm (v : List α) (n : Nat) (hlen : n < v.length) :
    seg (maxheapsort leB d v n) n = seg v n ∧
      (maxheapsort leB d v n).length = v.length := by
  unfold maxheapsort max_heapsort build_maxheap
  constructor
  · rw [sortLoop_seg_perm leB d n n _ (le_refl n)
        (by rw [buildLoop_length]; exact hlen),
      buildLoop_seg_perm leB d (n / 2) n v (Nat.div_le_self n 2) hlen]
  · rw [sortLoop_length, buildLoop_length]

end HeapsortPermRun

section HeapsortHeap

variable {α : Type} (leB : α → α → Bool) (d : α)

/-- Placing `temp` into the hole `h` yields the heap property on the subtree
of `i`, provided the other subtree edges hold, `temp` fits under the hole's
parent, and the hole's in-range children fit under `temp`. -/
theorem hs_placed_heap (i h n : Nat) (v : List α) (temp : α)
    (hh1 : 1 ≤ h) (hhn : h ≤ n) (hNlen : n < v.length) (hsub : inSub i h)
    (HB : ∀ k, k ≤ n → inSub i k → k ≠ i → k / 2 ≠ h →
      leB (v.getD k d) (v.getD (k / 2) d) = true)
    (HD : h ≠ i → leB temp (v.getD (h / 2) d) = true)
    (hchild : ∀ c, c ≤ n → c / 2 = h → leB (v.getD c d) temp = true) :
    ∀ k, k ≤ n → inSub i k → k ≠ i →
      leB ((v.set h temp).getD k d) ((v.set h temp).getD (k / 2) d) = true := by
  intro k hkn hksub hki
  by_cases hkh : k = h
  · subst hkh
    rw [hs_getD_set_self d v k temp (by omega),
      hs_getD_set_ne d v k (k / 2) temp (by omega)]
    exact HD (fun hih => hki hih)
  · by_cases hkph : k / 2 = h
    · have hk2h : 2 * h ≤ k := by omega
      rw [hs_getD_set_ne d v h k temp (fun hc => hkh hc.symm),
        hkph, hs_getD_set_self d v h temp (by omega)]
      exact hchild k hkn hkph
    · rw [hs_getD_set_ne d v h k temp (fun hc => hkh hc.symm),
        hs_getD_set_ne d v h (k / 2) temp (fun hc => hkph hc.symm)]
      exact HB k hkn hksub hki hkph

/-- Main invariant of the sift-down loop: under the subtree-except-hole heap
hypothesis, the hole's-children-fit-under-hole's-parent hypothesis and the
temp-fits-under-hole's-parent hypothesis, the loop establishes the heap
property on the whole subtree of `i` (edges into `i`'s parent excluded). -/
theorem siftDown_heap
    (htot : ∀ a b, leB a b = true ∨ leB b a = true)
    (htrans : ∀ a b c, leB a b = true → leB b c = true → leB a c = true)
    (i : Nat) :
    ∀ (fuel : Nat) (v : List α) (temp : α) (j n : Nat),
      2 ≤ j → 2 ∣ j → j / 2 ≤ n → n < v.length → inSub i (j / 2) →
      n + 1 ≤ fuel + j →
      (∀ k, k ≤ n → inSub i k → k ≠ i → k / 2 ≠ j / 2 →
        leB (v.getD k d) (v.getD (k / 2) d) = true) →
      (j / 2 ≠ i → ∀ c, c ≤ n → c / 2 = j / 2 →
        leB (v.getD c d) (v.getD (j / 2 / 2) d) = true) →
      (j / 2 ≠ i → leB temp (v.getD (j / 2 / 2) d) = true) →
      ∀ k, k ≤ n → inSub i k → k ≠ i →
        leB ((siftDown leB d fuel v temp j n).getD k d)
            ((siftDown leB d fuel v temp j n).getD (k / 2) d) = true := by
  intro fuel
  induction fuel with
  | zero =>
    intro v temp j n hj2 hdvd hjn hlen hsub hfuel HB HC HD
    have hjgt : n < j := by omega
    refine hs_placed_heap leB d i (j / 2) n v temp (by omega) hjn hlen hsub
      HB HD ?_
    intro c hcn hch
    obtain ⟨m, rfl⟩ := hdvd
    omega
  | succ fuel ih =>
    intro v temp j n hj2 hdvd hjn hlen hsub hfuel HB HC HD
    unfold siftDown
    split
    · rename_i hloop
      have hchalve := pickChild_halve leB d v j n hdvd
      have hcle := pickChild_le leB d v j n hloop
      have hcge := pickChild_ge leB d v j n
      have hcleft := pickChild_left_le leB d htot v j n
      split
      · rename_i hbreak
        rw [Bool.not_eq_true', Bool.eq_false_iff] at hbreak
        have htle : leB (v.getD (pickChild leB d v j n) d) temp = true := by
          rcases htot temp (v.getD (pickChild leB d v j n) d) with h | h
          · exact absurd h hbreak
          · exact h
        rw [hchalve]
        refine hs_placed_heap leB d i (j / 2) n v temp (by omega) hjn hlen hsub
          HB HD ?_
        intro c hcn hch
        have hcj : c = j ∨ c = j + 1 := by
          obtain ⟨m, rfl⟩ := hdvd
          omega
        rcases hcj with rfl | rfl
        · exact htrans _ _ _ hcleft htle
        · exact htrans _ _ _ (pickChild_right_le leB d htot v j n hcn) htle
      · rename_i hcont
        have hcont2 : leB temp (v.getD (pickChild leB d v j n) d) = true := by
          simpa using hcont
        have hjh : j / 2 < pickChild leB d v j n := by omega
        have hsubc : inSub i (pickChild leB d v j n) :=
          inSub_child i (j / 2) _ hsub hchalve
        have hile : i ≤ j / 2 := inSub_le i (j / 2) hsub
        refine ih (v.set (pickChild leB d v j n / 2) (v.getD (pickChild leB d v j n) d))
          temp (2 * pickChild leB d v j n) n (by omega) ⟨_, rfl⟩
          (by rw [Nat.mul_div_cancel_left _ (by omega : 0 < 2)]; exact hcle)
          (by rw [List.length_set]; exact hlen)
          (by rw [Nat.mul_div_cancel_left _ (by omega : 0 < 2)]; exact hsubc)
          (by omega) ?_ ?_ ?_
        · rw [Nat.mul_div_cancel_left _ (by omega : 0 < 2), hchalve]
          intro k hkn hksub hki hkc
          by_cases hkhole : k = j / 2
          · rw [hkhole, hs_getD_set_self d v (j / 2) _ (by omega),
              hs_getD_set_ne d v (j / 2) (j / 2 / 2) _ (by omega)]
            exact HC (fun hih => hki (hkhole.trans hih))
              (pickChild leB d v j n) (by omega) hchalve
          · by_cases hkp : k / 2 = j / 2
            · rw [hs_getD_set_ne d v (j / 2) k _ (by omega), hkp,
                hs_getD_set_self d v (j / 2) _ (by omega)]
              by_cases hkc2 : k = pickChild leB d v j n
              · rw [hkc2]
                exact hs_leB_refl leB htot _
              · have hcasek : k = j ∨ k = j + 1 := by
                  obtain ⟨m, hm⟩ := hdvd
                  omega
                rcases hcasek with rfl | rfl
                · exact hcleft
                · exact pickChild_right_le leB d htot v j n (by omega)
            · rw [hs_getD_set_ne d v (j / 2) k _ (by omega),
                hs_getD_set_ne d v (j / 2) (k / 2) _ (by omega)]
              exact HB k hkn hksub hki hkp
        · rw [Nat.mul_div_cancel_left _ (by omega : 0 < 2), hchalve]
          intro _ c hcn hcp
          have hcge2 : 2 * pickChild leB d v j n ≤ c := by omega
          rw [hs_getD_set_ne d v (j / 2) c _ (by omega),
            hs_getD_set_self d v (j / 2) _ (by omega)]
          have hthis := HB c hcn
            (inSub_child i (pickChild leB d v j n) c hsubc hcp)
            (by omega) (by omega)
          rw [hcp] at hthis
          exact hthis
        · rw [Nat.mul_div_cancel_left _ (by omega : 0 < 2), hchalve]
          intro _
          rw [hs_getD_set_self d v (j / 2) _ (by omega)]
          exact hcont2
    · rename_i hjgt
      refine hs_placed_heap leB d i (j / 2) n v temp (by omega) hjn hlen hsub
        HB HD ?_
      intro c hcn hch
      obtain ⟨m, rfl⟩ := hdvd
      omega

end HeapsortHeap

section HeapsortBuild

variable {α : Type} (leB : α → α → Bool) (d : α)

/-- `max_heapify i n` establishes the heap property on the subtree of `i`
when both child subtrees already satisfy it. -/
theorem max_heapify_heap
    (htot : ∀ a b, leB a b = true ∨ leB b a = true)
    (htrans : ∀ a b c, leB a b = true → leB b c = true → leB a c = true)
    (v : List α) (i n : Nat) (hi : 1 ≤ i) (hin : i ≤ n) (hlen : n < v.length)
    (HB0 : ∀ k, k ≤ n → inSub i k → k ≠ i → k / 2 ≠ i →
      leB (v.getD k d) (v.getD (k / 2) d) = true) :
    ∀ k, k ≤ n → inSub i k → k ≠ i →
      leB ((max_heapify leB d v i n).getD k d)
          ((max_heapify leB d v i n).getD (k / 2) d) = true := by
  unfold max_heapify
  have h2i : 2 * i / 2 = i := Nat.mul_div_cancel_left _ (by omega : 0 < 2)
  refine siftDown_heap leB d htot htrans i (n + 1) v (v.getD i d) (2 * i) n
    (by omega) ⟨i, rfl⟩ (by omega) hlen (by rw [h2i]; exact inSub_refl i)
    (by omega) ?_ ?_ ?_
  · rw [h2i]
    exact HB0
  · rw [h2i]
    intro hii
    exact absurd rfl hii
  · rw [h2i]
    intro hii
    exact absurd rfl hii

/-- Invariant of the heap-construction loop: if all edges with parent above
the counter hold, running the loop down to 1 yields the full heap
property. -/
theorem buildLoop_heap
    (htot : ∀ a b, leB a b = true ∨ leB b a = true)
    (htrans : ∀ a b c, leB a b = true → leB b c = true → leB a c = true) :
    ∀ (b : Nat) (n : Nat) (v : List α), b ≤ n / 2 → n < v.length →
      (∀ k, 2 ≤ k → k ≤ n → b + 1 ≤ k / 2 →
        leB (v.getD k d) (v.getD (k / 2) d) = true) →
      heapOrdered leB d (buildLoop leB d b n v) n := by
  intro b
  induction b with
  | zero =>
    intro n v _ _ hedges
    intro k hk2 hkn
    exact hedges k hk2 hkn (by omega)
  | succ b ih =>
    intro n v hb hlen hedges
    unfold buildLoop
    have hbn : b + 1 ≤ n := le_trans hb (Nat.div_le_self n 2)
    refine ih n (max_heapify leB d v (b + 1) n) (by omega)
      (by rw [max_heapify_length]; exact hlen) ?_
    intro k hk2 hkn hkpar
    by_cases hksub : inSub (b + 1) k
    · by_cases hkeq : k = b + 1
      · subst hkeq
        omega
      · exact max_heapify_heap leB d htot htrans v (b + 1) n (by omega) hbn
          hlen
          (fun k2 hk2n hk2sub hk2ne hk2par =>
            hedges k2 (by
              have := inSub_ge_double (b + 1) k2 hk2sub hk2ne
              omega) hk2n (by
              have hpsub : inSub (b + 1) (k2 / 2) := by
                obtain ⟨t, ht⟩ := hk2sub
                match t, ht with
                | 0, ht => exact absurd (by simpa using ht) hk2ne
                | s + 1, ht =>
                  refine ⟨s, ?_⟩
                  rw [← ht, pow_succ, mul_comm, ← Nat.div_div_eq_div_mul]
              have := inSub_ge_double (b + 1) (k2 / 2) hpsub hk2par
              omega))
          k hkn hksub hkeq
    · have hkpsub : ¬ inSub (b + 1) (k / 2) := by
        intro hp
        exact hksub (inSub_child (b + 1) (k / 2) k hp rfl)
      have hkpne : k / 2 ≠ b + 1 := by
        intro hc
        exact hkpsub (hc ▸ inSub_refl (b + 1))
      rw [max_heapify_untouched leB d v (b + 1) n (by omega) hbn k
          (fun hc => hksub hc.1),
        max_heapify_untouched leB d v (b + 1) n (by omega) hbn (k / 2)
          (fun hc => hkpsub hc.1)]
      exact hedges k hk2 hkn (by omega)

/-- `build_maxheap` establishes the heap property on positions 1..n. -/
theorem build_maxheap_heap
    (htot : ∀ a b, leB a b = true ∨ leB b a = true)
    (htrans : ∀ a b c, leB a b = true → leB b c = true → leB a c = true)
    (v : List α) (n : Nat) (hlen : n < v.length) :
    heapOrdered leB d (build_maxheap leB d v n) n := by
  unfold build_maxheap
  refine buildLoop_heap leB d htot htrans (n / 2) n v (le_refl _) hlen ?_
  intro k hk2 hkn hkpar
  have : k / 2 ≤ n / 2 := Nat.div_le_div_right hkn
  omega

/-- In a max-heap on 1..n the root entry dominates every entry. -/
theorem heap_le_root
    (htot : ∀ a b, leB a b = true ∨ leB b a = true)
    (htrans : ∀ a b c, leB a b = true → leB b c = true → leB a c = true)
    (v : List α) (n : Nat) (hh : heapOrdered leB d v n) :
    ∀ k, 1 ≤ k → k ≤ n → leB (v.getD k d) (v.getD 1 d) = true := by
  intro k
  induction k using Nat.strong_induction_on with
  | _ k ih =>
    intro hk1 hkn
    match k, hk1 with
    | 1, _ => exact hs_leB_refl leB htot _
    | k + 2, _ =>
      refine htrans _ _ _ (hh (k + 2) (by omega) hkn) ?_
      exact ih ((k + 2) / 2) (by omega) (by omega) (by omega)

end HeapsortBuild

section HeapsortSort

variable {α : Type} (leB : α → α → Bool) (d : α)

/-- Every member of the segment 1..n of `w` is an in-range entry of `w`. -/
theorem hs_mem_seg (w : List α) (n : Nat) (x : α) (hx : x ∈ seg w n) :
    ∃ p, 1 ≤ p ∧ p ≤ n ∧ p < w.length ∧ w.getD p d = x := by
  unfold seg at hx
  rw [Multiset.mem_coe, List.mem_iff_getElem] at hx
  obtain ⟨idx, hidx, hval⟩ := hx
  have hlen : idx < n ∧ idx < w.length - 1 := by
    rw [List.length_take, List.length_drop] at hidx
    omega
  refine ⟨idx + 1, by omega, by omega, by omega, ?_⟩
  have h1 : ((w.drop 1).take n)[idx]? = some x := by
    rw [List.getElem?_eq_getElem hidx, hval]
  rw [List.getElem?_take, if_pos hlen.1, List.getElem?_drop] at h1
  rw [List.getD_eq_getElem?_getD, show idx + 1 = 1 + idx by omega, h1]
  rfl

/-- Every in-range entry of positions 1..n of `w` is in the segment. -/
theorem hs_getD_mem_seg (w : List α) (n p : Nat) (hp1 : 1 ≤ p) (hpn : p ≤ n)
    (hplen : p < w.length) : w.getD p d ∈ seg w n := by
  unfold seg
  rw [Multiset.mem_coe, List.mem_iff_getElem?]
  refine ⟨p - 1, ?_⟩
  rw [List.getElem?_take, if_pos (by omega), List.getElem?_drop,
    show 1 + (p - 1) = p by omega, List.getD_eq_getElem?_getD,
    List.getElem?_eq_getElem hplen]
  rfl

/-- Main invariant of the sorting loop: positions above the counter are
sorted and dominate the heap below; running the loop sorts positions
1..n. -/
theorem sortLoop_sorted
    (htot : ∀ a b, leB a b = true ∨ leB b a = true)
    (htrans : ∀ a b c, leB a b = true → leB b c = true → leB a c = true)
    (n : Nat) :
    ∀ (m : Nat) (v : List α), m ≤ n → n < v.length →
      heapOrdered leB d v m →
      (∀ p q, m + 1 ≤ p → p ≤ q → q ≤ n →
        leB (v.getD p d) (v.getD q d) = true) →
      (∀ p q, 1 ≤ p → p ≤ m → m + 1 ≤ q → q ≤ n →
        leB (v.getD p d) (v.getD q d) = true) →
      ∀ p q, 1 ≤ p → p ≤ q → q ≤ n →
        leB ((sortLoop leB d m v).getD p d)
            ((sortLoop leB d m v).getD q d) = true := by
  intro m
  induction m using Nat.strong_induction_on with
  | _ m ih =>
    match m with
    | 0 =>
      intro v hm hlen hheap hsorted hcross p q hp1 hpq hqn
      exact hsorted p q (by omega) hpq hqn
    | 1 =>
      intro v hm hlen hheap hsorted hcross p q hp1 hpq hqn
      show leB (v.getD p d) (v.getD q d) = true
      by_cases hp : p = 1
      · by_cases hq : q = 1
        · rw [hp, hq]
          exact hs_leB_refl leB htot _
        · exact hp ▸ hcross 1 q (le_refl 1) (le_refl 1) (by omega) hqn
      · exact hsorted p q (by omega) hpq hqn
    | i + 2 =>
      intro v hm hlen hheap hsorted hcross p q hp1 hpq hqn
      unfold sortLoop
      have hroot := heap_le_root leB d htot htrans v (i + 2) hheap
      have hlen1 : ((v.set (i + 2) (v.getD 1 d)).set 1 (v.getD (i + 2) d)).length
          = v.length := by
        rw [List.length_set, List.length_set]
      have hv1_1 : ((v.set (i + 2) (v.getD 1 d)).set 1 (v.getD (i + 2) d)).getD 1 d
          = v.getD (i + 2) d :=
        hs_getD_set_self d _ 1 _ (by rw [List.length_set]; omega)
      have hv1_m : ((v.set (i + 2) (v.getD 1 d)).set 1 (v.getD (i + 2) d)).getD (i + 2) d
          = v.getD 1 d := by
        rw [hs_getD_set_ne d _ 1 (i + 2) _ (by omega),
          hs_getD_set_self d v (i + 2) _ (by omega)]
      have hv1_other : ∀ k, k ≠ 1 → k ≠ i + 2 →
          ((v.set (i + 2) (v.getD 1 d)).set 1 (v.getD (i + 2) d)).getD k d
            = v.getD k d := by
        intro k h1 h2
        rw [hs_getD_set_ne d _ 1 k _ (fun hc => h1 hc.symm),
          hs_getD_set_ne d v (i + 2) k _ (fun hc => h2 hc.symm)]
      set v1 := (v.set (i + 2) (v.getD 1 d)).set 1 (v.getD (i + 2) d) with hv1def
      set v2 := max_heapify leB d v1 1 (i + 1) with hv2def
      have hv2_len : v2.length = v.length := by
        rw [hv2def, max_heapify_length, hlen1]
      have hv2_untouched : ∀ k, i + 2 ≤ k → v2.getD k d = v1.getD k d := by
        intro k hk
        rw [hv2def]
        exact max_heapify_untouched leB d v1 1 (i + 1) (le_refl 1) (by omega) k
          (fun hc => by omega)
      have hheap2 : heapOrdered leB d v2 (i + 1) := by
        intro k hk2 hki
        rw [hv2def]
        refine max_heapify_heap leB d htot htrans v1 1 (i + 1) (le_refl 1)
          (by omega) (by rw [hlen1]; omega) ?_ k hki (inSub_one k (by omega))
          (by omega)
        intro k2 hk2n hk2sub hk2ne hk2par
        have hk2ge : 2 ≤ k2 := by
          have := inSub_ge_double 1 k2 hk2sub hk2ne
          omega
        have hk2parge : 2 ≤ k2 / 2 := by omega
        rw [hv1_other k2 (by omega) (by omega),
          hv1_other (k2 / 2) (by omega) (by omega)]
        exact hheap k2 hk2ge (by omega)
      have hperm : seg v2 (i + 1) = seg v1 (i + 1) := by
        rw [hv2def]
        exact max_heapify_seg_perm leB d v1 1 (i + 1) (i + 1) (le_refl 1)
          (by omega) (le_refl _) (by rw [hlen1]; omega)
      have hbound2 : ∀ k, 1 ≤ k → k ≤ i + 1 →
          leB (v2.getD k d) (v.getD 1 d) = true := by
        intro k hk1 hki
        have hmem : v2.getD k d ∈ seg v2 (i + 1) :=
          hs_getD_mem_seg d v2 (i + 1) k hk1 hki (by rw [hv2_len]; omega)
        rw [hperm] at hmem
        obtain ⟨pp, hp1', hpn', hplen', hval⟩ := hs_mem_seg d v1 (i + 1) _ hmem
        rw [← hval]
        by_cases hpp1 : pp = 1
        · rw [hpp1, hv1_1]
          exact hroot (i + 2) (by omega) (le_refl _)
        · rw [hv1_other pp hpp1 (by omega)]
          exact hroot pp (by omega) (by omega)
      have hsorted2 : ∀ p2 q2, i + 2 ≤ p2 → p2 ≤ q2 → q2 ≤ n →
          leB (v2.getD p2 d) (v2.getD q2 d) = true := by
        intro p2 q2 hp2 hpq2 hq2
        by_cases hpm : p2 = i + 2
        · by_cases hqm : q2 = i + 2
          · rw [hpm, hqm]
            exact hs_leB_refl leB htot _
          · rw [hpm, hv2_untouched (i + 2) (le_refl _), hv1_m,
              hv2_untouched q2 (by omega), hv1_other q2 (by omega) (by omega)]
            exact hcross 1 q2 (le_refl 1) (by omega) (by omega) hq2
        · rw [hv2_untouched p2 (by omega), hv2_untouched q2 (by omega),
            hv1_other p2 (by omega) (by omega),
            hv1_other q2 (by omega) (by omega)]
          exact hsorted p2 q2 (by omega) hpq2 hq2
      have hcross2 : ∀ p2 q2, 1 ≤ p2 → p2 ≤ i + 1 → i + 2 ≤ q2 → q2 ≤ n →
          leB (v2.getD p2 d) (v2.getD q2 d) = true := by
        intro p2 q2 hp2 hpi2 hq2 hqn2
        have h1 := hbound2 p2 hp2 hpi2
        by_cases hqm : q2 = i + 2
        · rw [hqm, hv2_untouched (i + 2) (le_refl _), hv1_m]
          exact h1
        · rw [hv2_untouched q2 (by omega), hv1_other q2 (by omega) (by omega)]
          exact htrans _ _ _ h1
            (hcross 1 q2 (le_refl 1) (by omega) (by omega) hqn2)
      exact ih (i + 1) (by omega) v2 (by omega) (by rw [hv2_len]; exact hlen)
        hheap2 hsorted2 hcross2 p q hp1 hpq hqn

end HeapsortSort

section HeapsortOutside

variable {α : Type} (leB : α → α → Bool) (d : α)

/-- The heap-construction loop leaves position 0 and positions above `n`
untouched. -/
theorem buildLoop_outside :
    ∀ (b n : Nat) (v : List α) (k : Nat), b ≤ n → k = 0 ∨ n < k →
      (buildLoop leB d b n v).getD k d = v.getD k d := by
  intro b
  induction b with
  | zero =>
    intro n v k _ _
    rfl
  | succ b ih =>
    intro n v k hb hk
    unfold buildLoop
    rw [ih n _ k (by omega) hk]
    refine max_heapify_untouched leB d v (b + 1) n (by omega) (by omega) k ?_
    intro hc
    rcases hk with rfl | hk2
    · have := inSub_le (b + 1) 0 hc.1
      omega
    · omega

end HeapsortOutside

/-- The sorting loop leaves position 0 and positions above `n` untouched. -/
theorem sortLoop_outside {α : Type} (leB : α → α → Bool) (d : α) (n : Nat) :
    ∀ (m : Nat) (v : List α) (k : Nat), m ≤ n → k = 0 ∨ n < k →
      (sortLoop leB d m v).getD k d = v.getD k d := by
  intro m
  induction m using Nat.strong_induction_on with
  | _ m ih =>
    match m with
    | 0 =>
      intro v k _ _
      rfl
    | 1 =>
      intro v k _ _
      rfl
    | i + 2 =>
      intro v k hm hk
      unfold sortLoop
      rw [ih (i + 1) (by omega) _ k (by omega) hk,
        max_heapify_untouched leB d _ 1 (i + 1) (le_refl 1) (by omega) k
          (fun hc => by
            rcases hk with rfl | hk2
            · have := inSub_le 1 0 hc.1
              omega
            · omega),
        hs_getD_set_ne d _ 1 k _ (by omega),
        hs_getD_set_ne d v (i + 2) k _ (by omega)]

/-- `maxheapsort` leaves position 0 and positions above `n` untouched. -/
theorem maxheapsort_outside {α : Type} (leB : α → α → Bool) (d : α)
    (v : List α) (n k : Nat) (hk : k = 0 ∨ n < k) :
    (maxheapsort leB d v n).getD k d = v.getD k d := by
  unfold maxheapsort max_heapsort build_maxheap
  rw [sortLoop_outside leB d n n _ k (le_refl n) hk,
    buildLoop_outside leB d (n / 2) n v k (Nat.div_le_self n 2) hk]

section HeapsortNoReadZero

variable {α : Type} (leB : α → α → Bool) (d : α) (x : α)

/-- The child selection never reads position 0 when the left child is
positive. -/
theorem pickChild_set_zero (v : List α) (j n : Nat) (hj : 1 ≤ j) :
    pickChild leB d (v.set 0 x) j n = pickChild leB d v j n := by
  unfold pickChild
  rw [hs_getD_set_ne d v 0 (j + 1) x (by omega),
    hs_getD_set_ne d v 0 j x (by omega)]

/-- The sift-down loop never reads or writes position 0: it commutes with
overwriting that position. -/
theorem siftDown_set_zero :
    ∀ (fuel : Nat) (v : List α) (temp : α) (j n : Nat), 2 ≤ j →
      siftDown leB d fuel (v.set 0 x) temp j n
        = (siftDown leB d fuel v temp j n).set 0 x := by
  intro fuel
  induction fuel with
  | zero =>
    intro v temp j n hj
    exact List.set_comm x temp v (by omega)
  | succ fuel ih =>
    intro v temp j n hj
    have hpc := pickChild_set_zero leB d x v j n (by omega)
    have hcge := pickChild_ge leB d v j n
    unfold siftDown
    rw [hpc, hs_getD_set_ne d v 0 (pickChild leB d v j n) x (by omega)]
    split
    · split
      · exact List.set_comm x temp v (by omega)
      · rw [List.set_comm x _ v (by omega : (0 : Nat) ≠ pickChild leB d v j n / 2)]
        exact ih (v.set (pickChild leB d v j n / 2) (v.getD (pickChild leB d v j n) d))
          temp (2 * pickChild leB d v j n) n (by omega)
    · exact List.set_comm x temp v (by omega)

/-- `max_heapify` never reads or writes position 0. -/
theorem max_heapify_set_zero (v : List α) (i n : Nat) (hi : 1 ≤ i) :
    max_heapify leB d (v.set 0 x) i n = (max_heapify leB d v i n).set 0 x := by
  unfold max_heapify
  rw [hs_getD_set_ne d v 0 i x (by omega)]
  exact siftDown_set_zero leB d x (n + 1) v (v.getD i d) (2 * i) n (by omega)

/-- The heap-construction loop never reads or writes position 0. -/
theorem buildLoop_set_zero :
    ∀ (b n : Nat) (v : List α),
      buildLoop leB d b n (v.set 0 x) = (buildLoop leB d b n v).set 0 x := by
  intro b
  induction b with
  | zero =>
    intro n v
    rfl
  | succ b ih =>
    intro n v
    unfold buildLoop
    rw [max_heapify_set_zero leB d x v (b + 1) n (by omega), ih]

/-- The sorting loop never reads or writes position 0. -/
theorem sortLoop_set_zero :
    ∀ (m : Nat) (v : List α),
      sortLoop leB d m (v.set 0 x) = (sortLoop leB d m v).set 0 x := by
  intro m
  induction m using Nat.strong_induction_on with
  | _ m ih =>
    match m with
    | 0 =>
      intro v
      rfl
    | 1 =>
      intro v
      rfl
    | i + 2 =>
      intro v
      unfold sortLoop
      rw [hs_getD_set_ne d v 0 1 x (by omega),
        hs_getD_set_ne d v 0 (i + 2) x (by omega),
        List.set_comm x _ v (by omega : (0 : Nat) ≠ i + 2),
        List.set_comm x _ _ (by omega : (0 : Nat) ≠ 1),
        max_heapify_set_zero leB d x _ 1 (i + 1) (le_refl 1),
        ih (i + 1) (by omega)]

/-- `maxheapsort` never reads or writes position 0. -/
theorem maxheapsort_set_zero (v : List α) (n : Nat) :
    maxheapsort leB d (v.set 0 x) n = (maxheapsort leB d v n).set 0 x := by
  unfold maxheapsort max_heapsort build_maxheap
  rw [buildLoop_set_zero, sortLoop_set_zero]

end HeapsortNoReadZero

/-- `maxheapsort` sorts positions 1..n into non-decreasing order (pairwise
form over array positions). -/
theorem maxheapsort_sorted_pairs {α : Type} (leB : α → α → Bool) (d : α)
    (htot : ∀ a b, leB a b = true ∨ leB b a = true)
    (htrans : ∀ a b c, leB a b = true → leB b c = true → leB a c = true)
    (v : List α) (n : Nat) (hlen : n < v.length) :
    ∀ p q, 1 ≤ p → p ≤ q → q ≤ n →
      leB ((maxheapsort leB d v n).getD p d)
          ((maxheapsort leB d v n).getD q d) = true := by
  unfold maxheapsort max_heapsort
  refine sortLoop_sorted leB d htot htrans n n (build_maxheap leB d v n)
    (le_refl n) ?_ ?_ ?_ ?_
  · unfold build_maxheap
    rw [buildLoop_length]
    exact hlen
  · exact build_maxheap_heap leB d htot htrans v n hlen
  · intro p q hp hpq hq
    exact absurd hq (by omega)
  · intro p q hp1 hpm hq hqn
    exact absurd hqn (by omega)

/-- Reading the 1..n segment at a list position reads the array at the
shifted position. -/
theorem hs_seg_getElem {α : Type} (d : α) (w : List α) (n idx : Nat)
    (h : idx < ((w.drop 1).take n).length) :
    ((w.drop 1).take n)[idx] = w.getD (idx + 1) d := by
  have hlen : idx < n ∧ idx < w.length - 1 := by
    rw [List.length_take, List.length_drop] at h
    omega
  have h1 : ((w.drop 1).take n)[idx]? = some ((w.drop 1).take n)[idx] :=
    List.getElem?_eq_getElem h
  rw [List.getElem?_take, if_pos hlen.1, List.getElem?_drop] at h1
  rw [List.getD_eq_getElem?_getD, show idx + 1 = 1 + idx by omega, h1]
  rfl

/-- The list of entries 1..n of the sorted array is pairwise ordered by the
comparison. -/
theorem maxheapsort_sorted_list {α : Type} (leB : α → α → Bool) (d : α)
    (htot : ∀ a b, leB a b = true ∨ leB b a = true)
    (htrans : ∀ a b c, leB a b = true → leB b c = true → leB a c = true)
    (v : List α) (n : Nat) (hlen : n < v.length) :
    List.Pairwise (fun a b => leB a b = true)
      (((maxheapsort leB d v n).drop 1).take n) := by
  rw [List.pairwise_iff_getElem]
  intro a b ha hb hab
  rw [hs_seg_getElem d _ n a ha, hs_seg_getElem d _ n b hb]
  have hbn : b < n := by
    rw [List.length_take, List.length_drop] at hb
    omega
  exact maxheapsort_sorted_pairs leB d htot htrans v n hlen (a + 1) (b + 1)
    (by omega) (by omega) (by omega)

/-- C1: `maxheapsort(v, n)` sorts exactly positions 1..n of the 1-based
array into non-decreasing order; the result restricted to positions 1..n is
a permutation (multiset equality) of the original entries; the array length
is preserved; position 0 is never written (its entry is unchanged, as are
all positions above n) and never read (overwriting position 0 commutes with
sorting); and in the value-index overload the (value, index) pairs travel
together — the multiset of pairs is preserved and the values end up
non-decreasing — so the index array undergoes the same permutation as the
value array. -/
theorem claim_C1_maxheapsort_correct (v : List ℤ) (w : List (ℚ × ℤ)) (n : Nat)
    (hv : n < v.length) (hw : n < w.length) :
    (List.Sorted (· ≤ ·) (((maxheapsort_int v n).drop 1).take n) ∧
     seg (maxheapsort_int v n) n = seg v n ∧
     (maxheapsort_int v n).length = v.length ∧
     (maxheapsort_int v n).getD 0 0 = v.getD 0 0 ∧
     (∀ k, n < k → (maxheapsort_int v n).getD k 0 = v.getD k 0) ∧
     (∀ x : ℤ, maxheapsort_int (v.set 0 x) n = (maxheapsort_int v n).set 0 x)) ∧
    (List.Sorted (fun a b => a.1 ≤ b.1) (((maxheapsort_vi w n).drop 1).take n) ∧
     seg (maxheapsort_vi w n) n = seg w n ∧
     (maxheapsort_vi w n).length = w.length ∧
     (maxheapsort_vi w n).getD 0 (0, 0) = w.getD 0 (0, 0) ∧
     (∀ k, n < k → (maxheapsort_vi w n).getD k (0, 0) = w.getD k (0, 0)) ∧
     (∀ x : ℚ × ℤ, maxheapsort_vi (w.set 0 x) n
        = (maxheapsort_vi w n).set 0 x)) := by
  have htotInt : ∀ a b : ℤ, decide (a ≤ b) = true ∨ decide (b ≤ a) = true := by
    intro a b
    simpa using le_total a b
  have htransInt : ∀ a b c : ℤ, decide (a ≤ b) = true → decide (b ≤ c) = true →
      decide (a ≤ c) = true := by
    intro a b c h1 h2
    simp only [decide_eq_true_eq] at h1 h2 ⊢
    exact le_trans h1 h2
  have htotVi : ∀ a b : ℚ × ℤ, decide (a.1 ≤ b.1) = true ∨
      decide (b.1 ≤ a.1) = true := by
    intro a b
    simpa using le_total a.1 b.1
  have htransVi : ∀ a b c : ℚ × ℤ, decide (a.1 ≤ b.1) = true →
      decide (b.1 ≤ c.1) = true → decide (a.1 ≤ c.1) = true := by
    intro a b c h1 h2
    simp only [decide_eq_true_eq] at h1 h2 ⊢
    exact le_trans h1 h2
  refine ⟨⟨?_, ?_, ?_, ?_, ?_, ?_⟩, ⟨?_, ?_, ?_, ?_, ?_, ?_⟩⟩
  · refine List.Pairwise.imp ?_
      (maxheapsort_sorted_list _ 0 htotInt htransInt v n hv)
    intro a b h
    exact decide_eq_true_eq.mp h
  · exact (maxheapsort_seg_perm _ 0 v n hv).1
  · exact (maxheapsort_seg_perm _ 0 v n hv).2
  · exact maxheapsort_outside _ 0 v n 0 (Or.inl rfl)
  · intro k hk
    exact maxheapsort_outside _ 0 v n k (Or.inr hk)
  · intro x
    exact maxheapsort_set_zero _ 0 x v n
  · refine List.Pairwise.imp ?_
      (maxheapsort_sorted_list _ (0, 0) htotVi htransVi w n hw)
    intro a b h
    exact decide_eq_true_eq.mp h
  · exact (maxheapsort_seg_perm _ (0, 0) w n hw).1
  · exact (maxheapsort_seg_perm _ (0, 0) w n hw).2
  · exact maxheapsort_outside _ (0, 0) w n 0 (Or.inl rfl)
  · intro k hk
    exact maxheapsort_outside _ (0, 0) w n k (Or.inr hk)
  · intro x
    exact maxheapsort_set_zero _ (0, 0) x w n

/-- Witness for C1 at the concrete arrays [9, 3, 1, 2] (int overload) and
[(0, 0), (5/2, 10), (1/2, 11), (1, 12)] (value-index overload) with n = 3. -/
theorem claim_C1_witness :
    3 < ([9, 3, 1, 2] : List ℤ).length ∧
    3 < ([(0, 0), (5/2, 10), (1/2, 11), (1, 12)] : List (ℚ × ℤ)).length ∧
    (List.Sorted (· ≤ ·) (((maxheapsort_int [9, 3, 1, 2] 3).drop 1).take 3) ∧
     seg (maxheapsort_int [9, 3, 1, 2] 3) 3 = seg ([9, 3, 1, 2] : List ℤ) 3 ∧
     (maxheapsort_int [9, 3, 1, 2] 3).length = ([9, 3, 1, 2] : List ℤ).length ∧
     (maxheapsort_int [9, 3, 1, 2] 3).getD 0 0
        = ([9, 3, 1, 2] : List ℤ).getD 0 0 ∧
     (∀ k, 3 < k → (maxheapsort_int [9, 3, 1, 2] 3).getD k 0
        = ([9, 3, 1, 2] : List ℤ).getD k 0) ∧
     (∀ x : ℤ, maxheapsort_int (([9, 3, 1, 2] : List ℤ).set 0 x) 3
        = (maxheapsort_int [9, 3, 1, 2] 3).set 0 x)) ∧
    (List.Sorted (fun a b => a.1 ≤ b.1)
        (((maxheapsort_vi [(0, 0), (5/2, 10), (1/2, 11), (1, 12)] 3).drop 1).take 3) ∧
     seg (maxheapsort_vi [(0, 0), (5/2, 10), (1/2, 11), (1, 12)] 3) 3
        = seg ([(0, 0), (5/2, 10), (1/2, 11), (1, 12)] : List (ℚ × ℤ)) 3 ∧
     (maxheapsort_vi [(0, 0), (5/2, 10), (1/2, 11), (1, 12)] 3).length
        = ([(0, 0), (5/2, 10), (1/2, 11), (1, 12)] : List (ℚ × ℤ)).length ∧
     (maxheapsort_vi [(0, 0), (5/2, 10), (1/2, 11), (1, 12)] 3).getD 0 (0, 0)
        = ([(0, 0), (5/2, 10), (1/2, 11), (1, 12)] : List (ℚ × ℤ)).getD 0 (0, 0) ∧
     (∀ k, 3 < k →
        (maxheapsort_vi [(0, 0), (5/2, 10), (1/2, 11), (1, 12)] 3).getD k (0, 0)
          = ([(0, 0), (5/2, 10), (1/2, 11), (1, 12)] : List (ℚ × ℤ)).getD k (0, 0)) ∧
     (∀ x : ℚ × ℤ,
        maxheapsort_vi (([(0, 0), (5/2, 10), (1/2, 11), (1, 12)] : List (ℚ × ℤ)).set 0 x) 3
          = (maxheapsort_vi [(0, 0), (5/2, 10), (1/2, 11), (1, 12)] 3).set 0 x)) :=
  ⟨by decide, by decide,
    claim_C1_maxheapsort_correct [9, 3, 1, 2]
      [(0, 0), (5/2, 10), (1/2, 11), (1, 12)] 3 (by decide) (by decide)⟩
